import Mathlib

/-!
# Verification of the SerializerV2 message codec core

A shallow embedding of the `serializer_core` package (fields.py, messages.py,
checksums.py, registry.py, stream.py, string_message.py, protocols.py).

Conventions of the embedding:
* a byte buffer is a `List Nat` whose entries are meant to be `< 256`;
* Python `float` values handled by fixed-point fields are modelled as `ℚ`
  (the fixed-point arithmetic of the source only uses multiplication by a
  power of two, `abs`, and `int(...)` truncation, all exact on rationals);
* Python `str` values are modelled by their UTF-8 byte sequences
  (`List Nat`), so `.encode("utf-8")` is the identity in the model;
* `struct.pack`/`unpack` with a `<` or `>` standard-size format is modelled
  by explicit little/big-endian base-256 digit lists; packing a multi-field
  format string is byte-wise identical to concatenating the single-field
  packs, which is how struct runs are modelled;
* a raised `ValueError`/`struct.error` is modelled by `Option.none`;
* the wall clock read by timestamp injection is passed in as an explicit
  integer parameter `now` (the value `int(t)` the source would compute);
* IEEE-754 float fields (`Float32`/`Float64`), nested-message fields and the
  unimplemented `Prefixed` array mode are outside the embedding; array items
  and bit-group backings carry an explicitly resolved byte order, as the
  source requires for their struct formats to be valid.
-/

namespace SerializerV2

abbrev Bytes := List Nat

/-- Little-endian base-256 digits, exactly `n` bytes (`struct` standard sizes). -/
def toLEBytes : Nat → Nat → Bytes
  | 0, _ => []
  | n + 1, v => v % 256 :: toLEBytes n (v / 256)

/-- Read back a little-endian digit list. -/
def fromLEBytes : Bytes → Nat
  | [] => 0
  | b :: bs => b + 256 * fromLEBytes bs

inductive Endian where
  | little
  | big
  deriving DecidableEq, Repr

/-- `struct.pack` of an unsigned integer with byte count `n` and an explicit
byte-order character (`<` or `>`). -/
def packNatE : Endian → Nat → Nat → Bytes
  | .little, n, v => toLEBytes n v
  | .big, n, v => (toLEBytes n v).reverse

/-- `struct.unpack` of an unsigned integer from exactly-sized data. -/
def unpackNatE : Endian → Bytes → Nat
  | .little, bs => fromLEBytes bs
  | .big, bs => fromLEBytes bs.reverse

@[simp] theorem toLEBytes_length (n v : Nat) : (toLEBytes n v).length = n := by
  induction n generalizing v with
  | zero => rfl
  | succ n ih => simp [toLEBytes, ih]

theorem fromLEBytes_toLEBytes (n v : Nat) :
    fromLEBytes (toLEBytes n v) = v % 256 ^ n := by
  induction n generalizing v with
  | zero => simp [toLEBytes, fromLEBytes, Nat.mod_one]
  | succ n ih =>
    simp only [toLEBytes, fromLEBytes, ih]
    rw [pow_succ, Nat.mul_comm (256 ^ n) 256, Nat.mod_mul]

theorem fromLEBytes_toLEBytes_of_lt {n v : Nat} (h : v < 256 ^ n) :
    fromLEBytes (toLEBytes n v) = v := by
  rw [fromLEBytes_toLEBytes]; exact Nat.mod_eq_of_lt h

@[simp] theorem packNatE_length (e : Endian) (n v : Nat) :
    (packNatE e n v).length = n := by
  cases e <;> simp [packNatE]

theorem unpackNatE_packNatE_of_lt (e : Endian) {n v : Nat} (h : v < 256 ^ n) :
    unpackNatE e (packNatE e n v) = v := by
  cases e <;> simp [packNatE, unpackNatE, fromLEBytes_toLEBytes_of_lt h]

theorem toLEBytes_lt (n v : Nat) : ∀ b ∈ toLEBytes n v, b < 256 := by
  induction n generalizing v with
  | zero => simp [toLEBytes]
  | succ n ih =>
    intro b hb
    simp only [toLEBytes, List.mem_cons] at hb
    rcases hb with h | h
    · omega
    · exact ih _ _ h

theorem packNatE_lt (e : Endian) (n v : Nat) : ∀ b ∈ packNatE e n v, b < 256 := by
  cases e with
  | little => exact toLEBytes_lt n v
  | big =>
    intro b hb
    simp only [packNatE, List.mem_reverse] at hb
    exact toLEBytes_lt n v b hb

/-! ## Values

Python runtime values that can sit in a message-instance attribute.
`none` is Python `None`; enum members of an `IntEnum` compare equal to their
underlying integer in Python, so binary enum members are carried as `.int`.
A bit-group value is a dict, modelled as an association list in bit order. -/

inductive Value where
  | none
  | int (i : Int)
  | bool (b : Bool)
  | rat (q : Rat)
  | str (s : Bytes)
  | dict (entries : List (String × Nat))
  | list (vs : List Value)
  deriving Repr

/-! ## Primitive fields (`PrimitiveField` and its concrete subclasses)

`uintT n` is the `B`/`H`/`I`/`Q` family (n bytes), `intT n` the signed
`b`/`h`/`i`/`q` family, `boolT` the 1-byte `?` format. -/

inductive PrimType where
  | uintT (size : Nat)
  | intT (size : Nat)
  | boolT
  deriving DecidableEq, Repr

def PrimType.size : PrimType → Nat
  | .uintT n => n
  | .intT n => n
  | .boolT => 1

/-- Python truthiness of the values `struct.pack("?", ...)` accepts. -/
def Value.truthy : Value → Bool
  | .none => false
  | .int i => i ≠ 0
  | .bool b => b
  | .rat q => q ≠ 0
  | .str s => !s.isEmpty
  | .dict es => !es.isEmpty
  | .list vs => !vs.isEmpty

/-- `struct.pack` of one primitive slot.  Out-of-range integers and
integer-format packing of non-integers raise `struct.error`, i.e. `none`. -/
def primPack (p : PrimType) (e : Endian) : Value → Option Bytes
  | .int i =>
    match p with
    | .uintT n => if 0 ≤ i ∧ i < 2 ^ (8 * n) then some (packNatE e n i.toNat) else none
    | .intT n =>
      if -(2 ^ (8 * n - 1) : Int) ≤ i ∧ i < 2 ^ (8 * n - 1) then
        some (packNatE e n (i % (2 ^ (8 * n))).toNat)
      else none
    | .boolT => some [if i = 0 then 0 else 1]
  | .bool b =>
    -- Python bool is an int subclass: packs as 0/1 in integer formats too.
    match p with
    | .uintT n => some (packNatE e n (if b then 1 else 0))
    | .intT n => some (packNatE e n (if b then 1 else 0))
    | .boolT => some [if b then 1 else 0]
  | v =>
    match p with
    | .boolT => some [if v.truthy then 1 else 0]
    | _ => none

/-- `struct.unpack` of one primitive slot from exactly `p.size` bytes. -/
def primUnpack (p : PrimType) (e : Endian) (bs : Bytes) : Value :=
  match p with
  | .uintT _ => .int (unpackNatE e bs)
  | .intT n =>
    let u := unpackNatE e bs
    .int (if u < 2 ^ (8 * n - 1) then (u : Int) else (u : Int) - 2 ^ (8 * n))
  | .boolT => .bool (unpackNatE e bs ≠ 0)

theorem primPack_length {p : PrimType} {e : Endian} {v : Value} {bs : Bytes}
    (h : primPack p e v = some bs) : bs.length = p.size := by
  cases v <;> cases p <;>
    simp only [primPack] at h <;>
    (try split at h) <;>
    (try cases h) <;>
    simp_all [PrimType.size]

/-- Value domains on which a primitive slot round-trips (the `1 ≤ n` on the
signed family reflects that only 1/2/4/8-byte formats exist). -/
def primDom (p : PrimType) : Value → Prop
  | .int i =>
    match p with
    | .uintT n => 0 ≤ i ∧ i < 2 ^ (8 * n)
    | .intT n => 1 ≤ n ∧ -(2 ^ (8 * n - 1) : Int) ≤ i ∧ i < 2 ^ (8 * n - 1)
    | .boolT => False
  | .bool _ => p = .boolT
  | _ => False

instance (p : PrimType) (v : Value) : Decidable (primDom p v) := by
  cases v <;> cases p <;> simp only [primDom] <;> infer_instance

theorem two_pow_mul_eq (n : Nat) : (2 : Nat) ^ (8 * n) = 256 ^ n := by
  rw [pow_mul]; norm_num

theorem primPack_unpack {p : PrimType} {e : Endian} {v : Value}
    (hd : primDom p v) :
    ∃ bs, primPack p e v = some bs ∧ bs.length = p.size ∧ primUnpack p e bs = v := by
  cases v with
  | int i =>
    cases p with
    | uintT n =>
      obtain ⟨h0, hl⟩ := hd
      have hcast : ((256 ^ n : Nat) : Int) = 2 ^ (8 * n) := by
        push_cast
        rw [show (256 : Int) = 2 ^ 8 by norm_num, ← pow_mul]
      refine ⟨packNatE e n i.toNat, ?_, by simp [PrimType.size], ?_⟩
      · simp [primPack, h0, hl]
      · have hlt : i.toNat < 256 ^ n := by omega
        simp only [primUnpack, unpackNatE_packNatE_of_lt e hlt, Value.int.injEq]
        omega
    | intT n =>
      obtain ⟨hn, h0, hl⟩ := hd
      have hcast : ((256 ^ n : Nat) : Int) = 2 ^ (8 * n) := by
        push_cast
        rw [show (256 : Int) = 2 ^ 8 by norm_num, ← pow_mul]
      have hcastQ : ((2 ^ (8 * n - 1) : Nat) : Int) = 2 ^ (8 * n - 1) := by
        push_cast
        ring
      have hPQ : (2 : Int) ^ (8 * n) = 2 * 2 ^ (8 * n - 1) := by
        rw [← pow_succ']
        congr 1
        omega
      have hQpos : (0 : Int) < 2 ^ (8 * n - 1) := by positivity
      have hmod : i % (2 ^ (8 * n)) = if 0 ≤ i then i else i + 2 ^ (8 * n) := by
        split
        · exact Int.emod_eq_of_lt (by assumption) (by omega)
        · have h1 : i % (2 ^ (8 * n)) = (i + 2 ^ (8 * n) * 1) % (2 ^ (8 * n)) := by
            rw [Int.add_mul_emod_self_left]
          rw [h1]
          rw [mul_one]
          exact Int.emod_eq_of_lt (by omega) (by omega)
      refine ⟨packNatE e n (i % (2 ^ (8 * n))).toNat,
        by simp [primPack, hn, h0, hl], by simp [PrimType.size], ?_⟩
      have htn : (i % (2 ^ (8 * n))).toNat < 256 ^ n := by
        rw [hmod]
        split <;> omega
      simp only [primUnpack, unpackNatE_packNatE_of_lt e htn, Value.int.injEq]
      rw [hmod]
      by_cases hpos : 0 ≤ i
      · rw [if_pos hpos, if_pos (by omega)]
        omega
      · rw [if_neg hpos, if_neg (by omega)]
        omega
    | boolT => exact absurd hd (by simp [primDom])
  | bool b =>
    have hp : p = .boolT := hd
    subst hp
    refine ⟨[if b then 1 else 0], rfl, by simp [PrimType.size], ?_⟩
    cases e <;> cases b <;> simp [primUnpack, unpackNatE, fromLEBytes]
  | none => exact absurd hd (by cases p <;> simp [primDom])
  | rat q => exact absurd hd (by cases p <;> simp [primDom])
  | str s => exact absurd hd (by cases p <;> simp [primDom])
  | dict es => exact absurd hd (by cases p <;> simp [primDom])
  | list vs => exact absurd hd (by cases p <;> simp [primDom])

/-! ## Field kinds

The tagged-variant view of the `Field` subclasses in fields.py.  `strFixed`
is `StringField(size_mode="Fixed")`, `strDynamic` the length-prefixed
variant.  Array `Prefixed` mode is not embedded (the source neither writes a
count on encode nor consumes anything on decode for it). -/

/-- Python `int(x)` on a rational: truncation toward zero. -/
def pyTrunc (q : Rat) : Int :=
  if 0 ≤ q then ⌊q⌋ else -⌊-q⌋

structure Bit where
  width : Nat
  name : String
  deriving Repr, DecidableEq

inductive BitOrder where
  | lsb
  | msb
  deriving DecidableEq, Repr

inductive ArrayMode where
  | fixedM
  | dynamicM
  deriving DecidableEq, Repr

inductive FieldKind where
  | prim (p : PrimType) (e : Endian)
  | enum (storage : PrimType) (e : Endian) (members : List Int)
  | fixedPoint (integer_bits fractional_bits : Nat) (encoding : Nat) (e : Endian)
  | strFixed (length : Nat)
  | strDynamic
  | bitfield (bits : List Bit) (backing : Nat) (e : Endian) (bit_order : BitOrder)
  | array (item : FieldKind) (mode : ArrayMode) (count : Nat)
  deriving Repr

namespace FieldKind

/-- `FixedPointField.total_bits`. -/
def fpTotalBits (ib fb enc : Nat) : Nat :=
  ib + fb + (if enc = 2 then 1 else 0)

/-- `FixedPointField._create_struct`: smallest standard primitive that holds
`total_bits`, signed exactly for encoding 1; `none` models the
"Too many bits" `ValueError`. -/
def fpPrim (ib fb enc : Nat) : Option PrimType :=
  let total := fpTotalBits ib fb enc
  let size : Option Nat :=
    if total ≤ 8 then some 1
    else if total ≤ 16 then some 2
    else if total ≤ 32 then some 4
    else if total ≤ 64 then some 8
    else none
  size.map fun n => if enc = 1 then .intT n else .uintT n

/-- `FixedPointField.to_bytes` (value already substituted for `None`). -/
def fpToBytes (ib fb enc : Nat) (e : Endian) (q : Rat) : Option Bytes := do
  let p ← fpPrim ib fb enc
  let scale : Rat := 2 ^ fb
  if enc = 2 then
    let direction_flag : Nat := if q < 0 then 1 else 0
    let magnitude : Rat := |q|
    let raw_val : Nat := (pyTrunc (magnitude * scale)).toNat
    let mask : Nat := (1 <<< (ib + fb)) - 1
    let raw_masked : Nat := raw_val &&& mask
    let msb_pos : Nat := ib + fb
    let final_val : Nat := raw_masked ||| (direction_flag <<< msb_pos)
    primPack p e (.int final_val)
  else
    let raw_val : Int := pyTrunc (q * scale)
    primPack p e (.int raw_val)

/-- `FixedPointField.from_bytes` on exactly-sized data (the caller slices). -/
def fpFromBytes (ib fb enc : Nat) (e : Endian) (bs : Bytes) : Option Rat := do
  let p ← fpPrim ib fb enc
  let scale : Rat := 2 ^ fb
  match primUnpack p e bs with
  | .int raw =>
    if enc = 2 then
      let raw_n : Nat := raw.toNat
      let msb_pos : Nat := ib + fb
      let direction_flag : Nat := (raw_n >>> msb_pos) &&& 1
      let mask : Nat := (1 <<< msb_pos) - 1
      let magnitude_raw : Nat := raw_n &&& mask
      let val : Rat := (magnitude_raw : Rat) / scale
      some (if direction_flag ≠ 0 then -val else val)
    else
      some ((raw : Rat) / scale)
  | _ => none

/-- The packing loop of `BitField.to_bytes` (`value.get(b.name, 0)` is
association-list lookup with default 0; `total_width` is fixed up front). -/
def bitPackGo (entries : List (String × Nat)) (bit_order : BitOrder)
    (total_width : Nat) : List Bit → Nat → Nat → Nat
  | [], _, packed => packed
  | b :: rest, current_shift, packed =>
    let val := ((entries.lookup b.name).getD 0) &&& ((1 <<< b.width) - 1)
    let shift :=
      match bit_order with
      | .msb => total_width - current_shift - b.width
      | .lsb => current_shift
    bitPackGo entries bit_order total_width rest (current_shift + b.width)
      (packed ||| (val <<< shift))

/-- `BitField.to_bytes` packing of a dict into the backing integer. -/
def bitPackDict (bits : List Bit) (bit_order : BitOrder)
    (entries : List (String × Nat)) : Nat :=
  bitPackGo entries bit_order ((bits.map Bit.width).sum) bits 0 0

/-- The extraction loop of `BitField.from_bytes`. -/
def bitUnpackGo (bit_order : BitOrder) (total_width raw_val : Nat) :
    List Bit → Nat → List (String × Nat)
  | [], _ => []
  | b :: rest, current_shift =>
    let mask := (1 <<< b.width) - 1
    let shift :=
      match bit_order with
      | .msb => total_width - current_shift - b.width
      | .lsb => current_shift
    (b.name, (raw_val >>> shift) &&& mask) ::
      bitUnpackGo bit_order total_width raw_val rest (current_shift + b.width)

/-- `BitField.from_bytes` extraction of the dict from the raw integer. -/
def bitUnpackDict (bits : List Bit) (bit_order : BitOrder) (raw_val : Nat) :
    List (String × Nat) :=
  bitUnpackGo bit_order ((bits.map Bit.width).sum) raw_val bits 0

/-- `BitField.to_bytes`: an `int` value is used directly ("already packed"),
a dict is packed bit by bit, then the backing primitive packs the result. -/
def bitFieldToBytes (bits : List Bit) (backing : Nat) (e : Endian)
    (bit_order : BitOrder) (v : Value) : Option Bytes :=
  let packed_int : Option Int :=
    match v with
    | .int i => some i
    | .dict entries => some (bitPackDict bits bit_order entries : Nat)
    | .none => some 0
    | _ => none
  match packed_int with
  | some i => primPack (.uintT backing) e (.int i)
  | none => none

/-- `BitField.from_bytes` on exactly-sized data. -/
def bitFieldFromBytes (bits : List Bit) (backing : Nat) (e : Endian)
    (bit_order : BitOrder) (bs : Bytes) : Option Value :=
  match primUnpack (.uintT backing) e bs with
  | .int raw => some (.dict (bitUnpackDict bits bit_order raw.toNat))
  | _ => none

/-- Strip trailing NUL bytes — `str.rstrip("\x00")` on the decoded text. -/
def rstripNull (s : Bytes) : Bytes :=
  (s.reverse.dropWhile (· = 0)).reverse

end FieldKind

/-- The `if value is None and self.default is not None: value = self.default`
idiom at the top of every `to_bytes`. -/
def substDefault (dflt : Value) : Value → Value
  | .none => dflt
  | v => v

/-- Serialize a list of array items left to right (`b"".join(...)`),
threading each item's post-call value; on the first failing item the
exception propagates but the values already updated stay updated. -/
def itemsToBytes (f : Value → Option Bytes × Value) :
    List Value → Option Bytes × List Value
  | [] => (some [], [])
  | v :: vs =>
    match f v with
    | (none, v1) => (none, v1 :: vs)
    | (some b, v1) =>
      match itemsToBytes f vs with
      | (none, vs1) => (none, v1 :: vs1)
      | (some bs, vs1) => (some (b ++ bs), v1 :: vs1)

/-- Fixed-count generic array decode: `for _ in range(count)` with
propagating errors. -/
def fixLoop (dec : Bytes → Option (Value × Nat)) :
    Nat → Bytes → Option (List Value × Nat)
  | 0, _ => some ([], 0)
  | n + 1, data => do
    let (v, c) ← dec data
    let (vs, m) ← fixLoop dec n (data.drop c)
    pure (v :: vs, c + m)

/-- Dynamic array decode: consume items until the buffer is exhausted,
breaking (best-effort) on the first item error.  An item that consumes zero
bytes makes the source loop forever; that divergence is modelled as `none`
(the fuel is always instantiated to the buffer length, which suffices for
items that consume at least one byte). -/
def dynLoop (dec : Bytes → Option (Value × Nat)) :
    Nat → Bytes → Option (List Value × Nat)
  | _, [] => some ([], 0)
  | 0, _ :: _ => none
  | fuel + 1, data =>
    match dec data with
    | none => some ([], 0)
    | some (v, c) =>
      if c = 0 then none
      else
        match dynLoop dec fuel (data.drop c) with
        | none => none
        | some (vs, m) => some (v :: vs, c + m)

/-- Discriminate the optimized `struct.pack` path of `ArrayField`: the item
is a `PrimitiveField` (with a resolved byte order, so `self.struct_format`
is valid). -/
def primOf : FieldKind → Option (PrimType × Endian)
  | .prim p e => some (p, e)
  | _ => none

/-- Unpack `count` consecutive equal primitive slots (one struct format like
`"<4B"`). -/
def unpackRun (p : PrimType) (e : Endian) : Nat → Bytes → List Value
  | 0, _ => []
  | n + 1, data => primUnpack p e (data.take p.size) :: unpackRun p e n (data.drop p.size)

/-- `struct.pack` of a whole sanitized Fixed primitive array
(`None` entries packed as 0). -/
def packSanitized (p : PrimType) (e : Endian) : List Value → Option Bytes
  | [] => some []
  | w :: ws => do
    let b ← match w with
      | .none => primPack p e (.int 0)
      | w1 => primPack p e w1
    let bs ← packSanitized p e ws
    pure (b ++ bs)

namespace FieldKind

mutual

/-- `Field.to_bytes` over the embedded kinds.  Returns the produced bytes
(`none` = a raised `ValueError`/`struct.error`/`TypeError`) together with
the post-call instance value: only `ArrayField` Fixed-mode padding mutates
the stored list (`value.extend([None] * ...)`). -/
def fieldToBytes (k : FieldKind) (dflt : Value) (v : Value) :
    Option Bytes × Value :=
  match k with
  | .prim p e =>
    let b :=
      match substDefault dflt v with
      | .none => primPack p e (.int 0)
      | v1 => primPack p e v1
    (b, v)
  | .enum storage e _ =>
    -- `EnumField.to_bytes`: a member packs its `.value`; in the embedding a
    -- binary member is already carried as its underlying integer.
    let b :=
      match substDefault dflt v with
      | .none => primPack storage e (.int 0)
      | v1 => primPack storage e v1
    (b, v)
  | .fixedPoint ib fb enc e =>
    let b :=
      match substDefault dflt v with
      | .none => fpToBytes ib fb enc e 0
      | .rat q => fpToBytes ib fb enc e q
      | .int i => fpToBytes ib fb enc e (i : Rat)
      | _ => none
    (b, v)
  | .strFixed len =>
    let b :=
      match substDefault dflt v with
      | .none => some (List.replicate len 0)
      | .str s => some (s.take len ++ List.replicate (len - s.length) 0)
      | _ => none
    (b, v)
  | .strDynamic =>
    let b :=
      match substDefault dflt v with
      | .none => some (packNatE .little 4 0)
      | .str s =>
        if s.length < 2 ^ 32 then some (packNatE .little 4 s.length ++ s) else none
      | _ => none
    (b, v)
  | .bitfield bits backing e bit_order =>
    (bitFieldToBytes bits backing e bit_order (substDefault dflt v), v)
  | .array item mode count =>
    -- When `value is None`, `value = self.default` rebinds the local name
    -- only: the Fixed-mode padding then extends the schema default object,
    -- never the (absent) instance value, so the instance side stays `None`.
    match v with
    | .list vs =>
      let (b, stored) := serializeItems item mode count vs
      (b, .list stored)
    | .none =>
      (match dflt with
        | .none => (serializeItems item mode count []).fst
        | .list ws => (serializeItems item mode count ws).fst
        | _ => none, Value.none)
    | _ => (none, v)
termination_by 2 * sizeOf k + 1

/-- `ArrayField.to_bytes` body, acting on the Python list object: pad a short
Fixed-mode list in place, serialize `value[:count]` (Fixed) or the whole
list (Dynamic). -/
def serializeItems (item : FieldKind) (mode : ArrayMode) (count : Nat)
    (vs : List Value) : Option Bytes × List Value :=
  match mode with
  | .fixedM =>
    let stored :=
      if vs.length < count then vs ++ List.replicate (count - vs.length) Value.none
      else vs
    let used := stored.take count
    match primOf item with
    | some (p, e) =>
      -- optimized `struct.pack(self.struct_format, *sanitized)` path
      (packSanitized p e used, stored)
    | none =>
      let (b, used1) := itemsToBytes (fun w => fieldToBytes item .none w) used
      (b, used1 ++ stored.drop count)
  | .dynamicM =>
    let (b, vs1) := itemsToBytes (fun w => fieldToBytes item .none w) vs
    (b, vs1)
termination_by 2 * sizeOf item + 2

end

/-- Size of `field.struct_format` when the field has one (the Fixed path of
the complex decode branch in `Message.from_bytes`); `none` when the format
string is empty (dynamic fields). -/
def struct_format_size : FieldKind → Option Nat
  | .prim p _ => some p.size
  | .enum storage _ _ => some storage.size
  | .fixedPoint ib fb enc _ => (fpPrim ib fb enc).map PrimType.size
  | .strFixed len => some len
  | .strDynamic => none
  | .bitfield _ backing _ _ => some backing
  | .array item .fixedM count =>
    match primOf item with
    | some (p, _) => some (count * p.size)
    | none => none
  | .array _ .dynamicM _ => none

/-- `Field.from_bytes`: decode one field from the front of `data`, returning
`(value, consumed)`; `none` models a raised `ValueError`/`struct.error`. -/
def fieldFromBytes (k : FieldKind) (data : Bytes) : Option (Value × Nat) :=
  match k with
  | .prim p e =>
    if data.length < p.size then none
    else some (primUnpack p e (data.take p.size), p.size)
  | .enum storage e _ =>
    -- `EnumField.from_bytes` falls back to the raw integer on `ValueError`,
    -- and an `IntEnum` member equals its integer, so both branches yield
    -- the same modelled value.
    if data.length < storage.size then none
    else some (primUnpack storage e (data.take storage.size), storage.size)
  | .fixedPoint ib fb enc e => do
    let p ← fpPrim ib fb enc
    if data.length < p.size then none
    else do
      let q ← fpFromBytes ib fb enc e (data.take p.size)
      pure (.rat q, p.size)
  | .strFixed len =>
    if data.length < len then none
    else some (.str (rstripNull (data.take len)), len)
  | .strDynamic =>
    if data.length < 4 then none
    else
      let l := fromLEBytes (data.take 4)
      if data.length < 4 + l then none
      else some (.str ((data.drop 4).take l), 4 + l)
  | .bitfield bits backing e bit_order =>
    if data.length < backing then none
    else (bitFieldFromBytes bits backing e bit_order (data.take backing)).map (·, backing)
  | .array item mode count =>
    match mode with
    | .fixedM =>
      match primOf item with
      | some (p, e) =>
        let size := count * p.size
        if data.length < size then none
        else some (.list (unpackRun p e count data), size)
      | none =>
        (fixLoop (fun bs => fieldFromBytes item bs) count data).map
          fun (vs, c) => (.list vs, c)
    | .dynamicM =>
      (dynLoop (fun bs => fieldFromBytes item bs) data.length data).map
        fun (vs, c) => (.list vs, c)

end FieldKind

/-! ## checksums.py -/

namespace Checksums

/-- One shift round of the CRC-16-CCITT inner loop. -/
def crc16round (crc : Nat) : Nat :=
  if crc &&& 0x8000 ≠ 0 then (crc <<< 1) ^^^ 0x1021 else crc <<< 1

/-- One byte of `crc16` (the 8-round loop followed by the 16-bit mask). -/
def crc16byte (crc b : Nat) : Nat :=
  (crc16round^[8] (crc ^^^ (b <<< 8))) &&& 0xFFFF

/-- `crc16`: CRC-16-CCITT, init 0xFFFF, poly 0x1021, no reflection. -/
def crc16 (data : Bytes) : Nat := data.foldl crc16byte 0xFFFF

/-- `zlib.crc32` (modelled from the zlib specification: reflected CRC-32,
poly 0xEDB88320, init/final xor 0xFFFFFFFF). -/
def crc32byte (crc b : Nat) : Nat :=
  (fun c => if c &&& 1 ≠ 0 then (c >>> 1) ^^^ 0xEDB88320 else c >>> 1)^[8] (crc ^^^ b)

def crc32 (data : Bytes) : Nat :=
  (data.foldl crc32byte 0xFFFFFFFF) ^^^ 0xFFFFFFFF

/-- `xor_sum`. -/
def xor_sum (data : Bytes) : Nat := data.foldl (· ^^^ ·) 0

/-- `byte_sum`: sum of bytes modulo 256. -/
def byte_sum (data : Bytes) : Nat := data.sum &&& 0xFF

/-- `byte_sum_ones_complement`: Python `(~s) & 0xFF` is `255 - s` for
`s ≤ 255`. -/
def byte_sum_ones_complement (data : Bytes) : Nat :=
  255 - (data.sum &&& 0xFF)

/-- `byte_sum_twos_complement`. -/
def byte_sum_twos_complement (data : Bytes) : Nat :=
  (0x100 - (data.sum &&& 0xFF)) &&& 0xFF

/-- Little-endian 16-bit word sum of an even-length buffer. -/
def wordsLE : Bytes → Nat
  | a :: b :: rest => ((b <<< 8) ||| a) + wordsLE rest
  | _ => 0

/-- `additive_word`: pad to even length with 0, sum LE words, mask. -/
def additive_word (data : Bytes) : Nat :=
  let padded := if data.length % 2 ≠ 0 then data ++ [0] else data
  wordsLE padded &&& 0xFFFF

/-- `checksums.calculate`: dispatch by algorithm name, 0 for unknown. -/
def calculate (algo_name : String) (data : Bytes) : Nat :=
  if algo_name = "CRC32" then crc32 data
  else if algo_name = "CRC16" then crc16 data
  else if algo_name = "XOR" then xor_sum data
  else if algo_name = "ByteSum" then byte_sum data
  else if algo_name = "ByteSum1C" then byte_sum_ones_complement data
  else if algo_name = "ByteSum2C" then byte_sum_twos_complement data
  else if algo_name = "AdditiveWord" then additive_word data
  else 0

end Checksums

/-! ## messages.py: schema, packing plan, serialize, from_bytes -/

/-- One declared field of a message schema, with the role flags and
smart-field metadata of `Field.__init__`.  The byte order inside `kind` is
already resolved (`resolve_endianness` applied the message default). -/
structure FieldSpec where
  name : String
  kind : FieldKind
  default : Value := .none
  is_discriminator : Bool := false
  is_checksum : Bool := false
  is_length : Bool := false
  is_timestamp : Bool := false
  algorithm : String := "CRC16"
  start_field : Option String := Option.none
  end_field : Option String := Option.none
  deriving Repr

/-- `resolve_endianness`: a field's own byte order if set, else the message
default (`register` maps anything but `<`/`>` to `<`). -/
def resolveEndian (byte_order : Option Endian) (msg_endian : Endian) : Endian :=
  byte_order.getD msg_endian

/-- A packing-plan step: a coalesced struct run or a complex field. -/
inductive Step where
  | structRun (run : List FieldSpec)
  | complex (f : FieldSpec)
  deriving Repr

/-- Fields the layout compiler coalesces into struct runs
(`isinstance(field, PrimitiveField)` or `EnumField`). -/
def coalescable (f : FieldSpec) : Bool :=
  match f.kind with
  | .prim _ _ => true
  | .enum _ _ _ => true
  | _ => false

/-- The endianness character of a coalescable field's struct format. -/
def endianOf (f : FieldSpec) : Endian :=
  match f.kind with
  | .prim _ e => e
  | .enum _ e _ => e
  | _ => .little

/-- The backing primitive of a struct-run field. -/
def runPrimOf : FieldKind → Option (PrimType × Endian)
  | .prim p e => some (p, e)
  | .enum storage e _ => some (storage, e)
  | _ => Option.none

/-- `flush()` of the layout compiler. -/
def flushRun (run : List FieldSpec) : List Step :=
  if run.isEmpty then [] else [.structRun run]

/-- The field loop of `register`: accumulate primitive-like fields sharing
one endianness, flush on a change or a complex field. -/
def compileAux : List FieldSpec → Option Endian → List FieldSpec → List Step
  | run, _, [] => flushRun run
  | run, cur, f :: fs =>
    if coalescable f then
      let fe := endianOf f
      if cur ≠ Option.none ∧ some fe ≠ cur then
        flushRun run ++ compileAux [f] (some fe) fs
      else
        compileAux (run ++ [f]) (some fe) fs
    else
      flushRun run ++ Step.complex f :: compileAux [] Option.none fs

/-- The packing plan built at registration time. -/
def compilePlan (fields : List FieldSpec) : List Step :=
  compileAux [] Option.none fields

/-- `getattr(self, name)` (instances always carry every schema field). -/
def lookupValue (inst : List (String × Value)) (n : String) : Value :=
  (inst.lookup n).getD .none

/-- `setattr(self, name, v)` on an existing attribute. -/
def setValue : List (String × Value) → String → Value → List (String × Value)
  | [], _, _ => []
  | (m, w) :: rest, n, v =>
    if m = n then (n, v) :: rest else (m, w) :: setValue rest n v

/-- The value packed for one struct-run slot in pass 1 of `serialize`:
checksum/length slots get the 0 placeholder, timestamp slots the wall
clock, otherwise the stored value with enum members resolved (identity in
the model) and `None` replaced by 0. -/
def runFieldValue (now : Int) (f : FieldSpec) (v : Value) : Value :=
  if f.is_checksum then .int 0
  else if f.is_length then .int 0
  else if f.is_timestamp then .int now
  else
    match v with
    | .none => .int 0
    | v1 => v1

/-- Pass-1 encoding of one struct run starting at `offset`: the packed
bytes, the recorded `field_info` entries, and the collected length and
checksum patches (each `(field, slot offset)`). -/
def encodeRun (now : Int) (inst : List (String × Value)) :
    List FieldSpec → Nat →
    Option (Bytes × List (String × Nat × Nat) ×
      List (FieldSpec × Nat) × List (FieldSpec × Nat)) :=
  fun run offset =>
    match run with
    | [] => some ([], [], [], [])
    | f :: rest => do
      let (p, e) ← runPrimOf f.kind
      let v := runFieldValue now f (lookupValue inst f.name)
      let b ← primPack p e v
      let (bs, info, lps, cps) ← encodeRun now inst rest (offset + p.size)
      let lps1 := if ¬ f.is_checksum ∧ f.is_length then (f, offset) :: lps else lps
      let cps1 := if f.is_checksum then (f, offset) :: cps else cps
      pure (b ++ bs, (f.name, offset, p.size) :: info, lps1, cps1)

/-- Pass 1 of `Message.serialize` over the packing plan: emit all chunks,
record offsets and patches, and thread the (possibly mutated) instance. -/
def pass1 (now : Int) :
    List Step → List (String × Value) → Nat →
    Option (Bytes × List (String × Nat × Nat) ×
      List (FieldSpec × Nat) × List (FieldSpec × Nat) × List (String × Value))
  | [], inst, _ => some ([], [], [], [], inst)
  | .structRun run :: steps, inst, offset => do
    let (b, info, lps, cps) ← encodeRun now inst run offset
    let (bs, info2, lps2, cps2, inst2) ← pass1 now steps inst (offset + b.length)
    pure (b ++ bs, info ++ info2, lps ++ lps2, cps ++ cps2, inst2)
  | .complex f :: steps, inst, offset =>
    match FieldKind.fieldToBytes f.kind f.default (lookupValue inst f.name) with
    | (Option.none, _) => Option.none
    | (some chunk, v1) => do
      let inst1 := setValue inst f.name v1
      let (bs, info2, lps2, cps2, inst2) ← pass1 now steps inst1 (offset + chunk.length)
      pure (chunk ++ bs, (f.name, offset, chunk.length) :: info2, lps2, cps2, inst2)

/-- `struct.pack_into(buffer, offset, ...)`. -/
def writeAt (buf : Bytes) (offset : Nat) (patch : Bytes) : Bytes :=
  buf.take offset ++ patch ++ buf.drop (offset + patch.length)

/-- Pass 2a of `serialize`: apply every length patch in order. -/
def applyLengths (info : List (String × Nat × Nat)) :
    List (FieldSpec × Nat) → Bytes → Option Bytes
  | [], buf => some buf
  | (f, offset) :: rest, buf =>
    let buf1 : Option Bytes :=
      match f.start_field, f.end_field with
      | some sf, some ef =>
        match info.lookup sf, info.lookup ef with
        | some (s_start, _), some (e_start, e_size) =>
          let end_byte := e_start + e_size
          let calc_len : Nat := ((end_byte : Int) - s_start).toNat
          match runPrimOf f.kind with
          | some (p, e) => (primPack p e (.int calc_len)).map (writeAt buf offset)
          | Option.none => some buf
        | _, _ => some buf
      | _, _ => some buf
    buf1 >>= applyLengths info rest

/-- Pass 2b of `serialize`: apply every checksum patch in order. -/
def applyChecksums (info : List (String × Nat × Nat)) :
    List (FieldSpec × Nat) → Bytes → Option Bytes
  | [], buf => some buf
  | (f, offset) :: rest, buf =>
    let buf1 : Option Bytes :=
      match f.start_field, f.end_field with
      | some sf, some ef =>
        match info.lookup sf, info.lookup ef with
        | some (s_start, _), some (e_start, e_size) =>
          let end_byte := e_start + e_size
          if s_start < end_byte ∧ end_byte ≤ buf.length then
            let data_slice := (buf.take end_byte).drop s_start
            let result := Checksums.calculate f.algorithm data_slice
            match runPrimOf f.kind with
            | some (p, e) => (primPack p e (.int result)).map (writeAt buf offset)
            | Option.none => some buf
          else some buf
        | _, _ => some buf
      | _, _ => some buf
    buf1 >>= applyChecksums info rest

/-- `Message.serialize` (two-pass), with the wall clock as the explicit
parameter `now`; also returns the post-call instance values. -/
def msgSerialize (schema : List FieldSpec) (inst : List (String × Value))
    (now : Int) : Option (Bytes × List (String × Value)) := do
  let (buf, info, lps, cps, inst1) ← pass1 now (compilePlan schema) inst 0
  let buf1 ← applyLengths info lps buf
  let buf2 ← applyChecksums info cps buf1
  pure (buf2, inst1)

/-- Byte size of one struct-run slot. -/
def fieldRunSize (f : FieldSpec) : Nat :=
  match runPrimOf f.kind with
  | some (p, _) => p.size
  | Option.none => 0

/-- `struct_obj.size` of a whole run. -/
def runSize (run : List FieldSpec) : Nat := (run.map fieldRunSize).sum

/-- Decode the fields of one struct run from its exactly-sized chunk,
applying the (unguarded) `field.enum_cls(val)` conversion. -/
def decodeRunFields : List FieldSpec → Bytes → Option (List (String × Value))
  | [], _ => some []
  | f :: rest, chunk => do
    let (p, e) ← runPrimOf f.kind
    let v := primUnpack p e (chunk.take p.size)
    let v1 ←
      match f.kind with
      | .enum _ _ members =>
        match v with
        | .int i => if i ∈ members then some (Value.int i) else Option.none
        | _ => Option.none
      | _ => some v
    let vs ← decodeRunFields rest (chunk.drop p.size)
    pure ((f.name, v1) :: vs)

/-- `Message.from_bytes` over the packing plan, in remaining-buffer form
(the source's `offset` into `data` is `data.drop` here); returns the
decoded assignments in plan order and the total bytes consumed. -/
def decodeSteps : List Step → Bytes → Option (List (String × Value) × Nat)
  | [], _ => some ([], 0)
  | .structRun run :: steps, data =>
    let chunk_size := runSize run
    if data.length < chunk_size then Option.none
    else do
      let vals ← decodeRunFields run (data.take chunk_size)
      let (rest, c) ← decodeSteps steps (data.drop chunk_size)
      pure (vals ++ rest, chunk_size + c)
  | .complex f :: steps, data =>
    match FieldKind.struct_format_size f.kind with
    | some size =>
      if data.length < size then Option.none
      else do
        let (v, _) ← FieldKind.fieldFromBytes f.kind data
        let (rest, c) ← decodeSteps steps (data.drop size)
        pure ((f.name, v) :: rest, size + c)
    | Option.none => do
      let (v, consumed) ← FieldKind.fieldFromBytes f.kind data
      let (rest, c) ← decodeSteps steps (data.drop consumed)
      pure ((f.name, v) :: rest, consumed + c)

/-- `Message.from_bytes`. -/
def msgFromBytes (schema : List FieldSpec) (data : Bytes) :
    Option (List (String × Value) × Nat) :=
  decodeSteps (compilePlan schema) data

/-! ## registry.py and stream.py -/

/-- One registered binary message: its discriminator offset and default
value (the `_lookup_map` entry), the discriminator field's kind (for the
peek), and the schema.  SPL config filtering is not exercised by the claims
and is omitted (no entry carries an allowed-config list). -/
structure RegEntry where
  disc_offset : Nat
  disc_value : Int
  disc_kind : FieldKind
  schema : List FieldSpec

/-- Outcome of `Registry.deserialize` as seen by the caller.  Both the
"Incomplete data" and the "Unknown message" exits raise `struct.error`
(registry.py lines 171 and 173), so they share one constructor; the string
branch of `deserialize` likewise converts its failures to `struct.error`.
`noneEmpty` is the `if not data: return None, 0` exit.  `errAttr` is an
exception outside `(ValueError, struct.error)` — in particular the
`AttributeError` raised by `data.startswith(start_sym)` (registry.py:130)
when the argument is a `memoryview`, which has no `startswith`. -/
inductive DesResult where
  | ok (inst : List (String × Value)) (consumed : Nat)
  | noneEmpty
  | errStruct
  | errAttr
  deriving Repr

/-- The candidate loop of `Registry.deserialize`: peek the discriminator at
each registered offset, on a value match attempt the full decode; decode
errors set `incomplete_data` and continue; after the loop both exits raise
`struct.error`. -/
def registryLoop (data : Bytes) : List RegEntry → DesResult
  | [] => .errStruct
  | entry :: rest =>
    if data.length > entry.disc_offset then
      match FieldKind.fieldFromBytes entry.disc_kind (data.drop entry.disc_offset) with
      | some (.int v, _) =>
        if v = entry.disc_value then
          match msgFromBytes entry.schema data with
          | some (inst, consumed) => .ok inst consumed
          | Option.none => registryLoop data rest
        else registryLoop data rest
      | _ => registryLoop data rest
    else registryLoop data rest

/-- `Registry.deserialize` applied to a `bytes` argument.  A buffer
starting with the configured start symbol `<` (byte 60) is routed to
`deserialize_string`, which raises `struct.error` when no string message
matches (none is registered in the binary scenarios modelled here).
`StreamHandler.feed` never reaches this code path: it passes a
`memoryview`, see `registryDeserializeMV`. -/
def registryDeserialize (reg : List RegEntry) (data : Bytes) : DesResult :=
  if data.isEmpty then .noneEmpty
  else if data.head? = some 60 then .errStruct
  else registryLoop data reg

/-- `Registry.deserialize` as invoked from `StreamHandler.feed`: the
argument is `memoryview(self._buffer)` (stream.py:30).  An empty view is
falsy (`memoryview` supports `len`), so the `if not data: return None, 0`
exit is taken; on a non-empty view the first method used on the data,
`data.startswith(start_sym)` (registry.py:130), raises `AttributeError`
(`memoryview` has no `startswith`) before a single byte is examined, so
the registry lookup is never reached. -/
def registryDeserializeMV (data : Bytes) : DesResult :=
  if data.isEmpty then .noneEmpty else .errAttr

/-- The `while True` loop of `StreamHandler.feed`, fed by
`registryDeserializeMV` (feed hands the registry a `memoryview`).  The
branches mirror stream.py: a decoded object is appended and its bytes
consumed; `(ValueError, struct.error)` sets `error_break` and the loop
stops without consuming; any other exception (the generic handler,
stream.py:62-66) and a falsy result both set `resync_needed`, which drops
one byte and retries while the buffer is non-empty.  With the memoryview
argument only the last two branches ever run: `AttributeError` on every
non-empty buffer, the falsy `(None, 0)` on the empty one. -/
def feedLoop (reg : List RegEntry) :
    Nat → Bytes → List (List (String × Value)) →
    Bytes × List (List (String × Value))
  | 0, buffer, out => (buffer, out)
  | fuel + 1, buffer, out =>
    match registryDeserializeMV buffer with
    | .ok obj consumed => feedLoop reg fuel (buffer.drop consumed) (out ++ [obj])
    | .errStruct => (buffer, out)
    | .noneEmpty =>
      if buffer.isEmpty then (buffer, out)
      else feedLoop reg fuel (buffer.drop 1) out
    | .errAttr =>
      if buffer.isEmpty then (buffer, out)
      else feedLoop reg fuel (buffer.drop 1) out

/-- `StreamHandler.feed` in BINARY mode: append, then run the loop.
Returns the final internal buffer and output queue.  (The fuel bounds the
number of loop iterations; every non-terminating iteration consumes at
least one byte, so the bound is never hit.) -/
def feed (reg : List RegEntry) (buffer data : Bytes)
    (queue : List (List (String × Value))) :
    Bytes × List (List (String × Value)) :=
  if data.isEmpty then (buffer, queue)
  else feedLoop reg (buffer.length + data.length + 1) (buffer ++ data) queue

/-! ## protocols.py and string_message.py -/

/-- UTF-8 bytes of an ASCII string literal (the framework text is ASCII). -/
def asciiBytes (s : String) : List Nat := s.data.map Char.toNat

structure ProtocolConfig where
  START_SYMBOL : List Nat := asciiBytes "<"
  END_SYMBOL : List Nat := asciiBytes ">"
  DELIM_FIELD : List Nat := asciiBytes ";"
  DELIM_ID : List Nat := asciiBytes "|"
  DELIM_TYPE : List Nat := asciiBytes "|"
  DELIM_CMD : List Nat := asciiBytes "|"
  USE_CHECKSUM : Bool := true

/-- Values stored on a string-protocol instance: `svMember` is an enum
member carrying its `.name`. -/
inductive SVal where
  | svNone
  | svInt (i : Int)
  | svStr (s : List Nat)
  | svMember (name : String)
  | svBool (b : Bool)
  deriving Repr

/-- String-protocol field kinds: `sString` is a `StringField` (whose
`to_string` is the inherited `str(value)`), `sPrim` a numeric primitive,
`sEnum` a string-backed `EnumField` with its `(member name, member value)`
table. -/
inductive SFieldKind where
  | sString
  | sPrim
  | sEnum (members : List (String × List Nat))
  deriving Repr

structure SFieldSpec where
  name : String
  kind : SFieldKind
  default : SVal := .svNone
  is_checksum : Bool := false

def hexUpperDigit (d : Nat) : Nat := if d < 10 then 48 + d else 55 + d

/-- Little-endian uppercase hex digits of `n`; the fuel (first argument)
only bounds the recursion and `n` itself is always enough of it. -/
def hexDigitsCore (fuel : Nat) (n : Nat) : List Nat :=
  match fuel with
  | 0 => []
  | fuel + 1 =>
    if n = 0 then [] else hexUpperDigit (n % 16) :: hexDigitsCore fuel (n / 16)

/-- Little-endian uppercase hex digits of `n` (empty for 0). -/
def hexDigitsLE (n : Nat) : List Nat := hexDigitsCore n n

/-- Python `f"{n:0{width}X}"`. -/
def pyFormatHex (width n : Nat) : List Nat :=
  let ds := if n = 0 then [48] else (hexDigitsLE n).reverse
  List.replicate (width - ds.length) 48 ++ ds

/-- Python `str(...)` of an instance value (`Field.to_string` fallback). -/
def pyStr : SVal → List Nat
  | .svNone => asciiBytes "None"
  | .svInt i => asciiBytes (toString i)
  | .svStr s => s
  | .svMember n => asciiBytes n
  | .svBool b => if b then asciiBytes "True" else asciiBytes "False"

/-- `Field.to_string` / `EnumField.to_string`: substitute the default for
`None`, emit `""` for a still-missing value, resolve enum members (and
member values) to member names, else `str(value)`. -/
def sToString (k : SFieldKind) (dflt : SVal) (v : SVal) : List Nat :=
  let v1 := match v with | .svNone => dflt | w => w
  match v1 with
  | .svNone => []
  | w =>
    match k with
    | .sEnum members =>
      match w with
      | .svMember n => asciiBytes n
      | .svStr s =>
        match members.find? (fun m => m.snd = s) with
        | some m => asciiBytes m.fst
        | Option.none => s
      | w1 => pyStr w1
    | _ => pyStr w

def sLookup (inst : List (String × SVal)) (n : String) : SVal :=
  (inst.lookup n).getD .svNone

/-- The header + body text hashed by the checksum: `START + header + body`
(`content_to_hash` in `StringMessage.serialize`). -/
def stringContent (cfg : ProtocolConfig) (schema : List SFieldSpec)
    (inst : List (String × SVal)) (msg_id : Nat) : List Nat :=
  let fieldToStr : String → List Nat := fun n =>
    match schema.find? (fun f => f.name = n) with
    | some f => sToString f.kind f.default (sLookup inst n)
    | Option.none => asciiBytes "UNK"
  let header :=
    pyFormatHex 4 msg_id ++ cfg.DELIM_ID ++
    fieldToStr "cmd_type" ++ cfg.DELIM_TYPE ++
    fieldToStr "cmd_str" ++ cfg.DELIM_CMD
  let body :=
    (schema.filter fun f =>
        ¬ (f.name = "cmd_type" ∨ f.name = "cmd_str") ∧ ¬ f.is_checksum).flatMap
      fun f => sToString f.kind f.default (sLookup inst f.name) ++ cfg.DELIM_FIELD
  cfg.START_SYMBOL ++ header ++ body

/-- `StringMessage.serialize`: frame text = content, then (when the global
use-checksum flag is set) two uppercase hex digits of the byte XOR of the
content, then the end symbol. -/
def stringSerialize (cfg : ProtocolConfig) (schema : List SFieldSpec)
    (inst : List (String × SVal)) (msg_id : Nat) : List Nat :=
  let content_to_hash := stringContent cfg schema inst msg_id
  let chk_str :=
    if cfg.USE_CHECKSUM then pyFormatHex 2 (Checksums.xor_sum content_to_hash)
    else []
  content_to_hash ++ chk_str ++ cfg.END_SYMBOL

/-! ## Concrete scenario schemas -/

/-- `Message.__init__` with no kwargs: every field attribute is its default
(`None` when the field has no default). -/
def defaultInstance (schema : List FieldSpec) : List (String × Value) :=
  schema.map fun f => (f.name, f.default)

/-- Scenario: `magic: u16 big = 0xCAFE`. -/
def magicF : FieldSpec :=
  { name := "magic", kind := .prim (.uintT 2) (resolveEndian (some .big) .little),
    default := .int 0xCAFE }

/-- Scenario: `version: u8 = 1` (inherits the little message default). -/
def versionF : FieldSpec :=
  { name := "version", kind := .prim (.uintT 1) (resolveEndian Option.none .little),
    default := .int 1 }

/-- Scenario: `value: u16 little = 0x1234`. -/
def valueF : FieldSpec :=
  { name := "value", kind := .prim (.uintT 2) (resolveEndian (some .little) .little),
    default := .int 0x1234 }

def c6schema : List FieldSpec := [magicF, versionF, valueF]

/-- Scenario: `sync: u8 = 0xAA`. -/
def syncF : FieldSpec :=
  { name := "sync", kind := .prim (.uintT 1) .little, default := .int 0xAA }

/-- Scenario: `checksum: u16 is_checksum algo=CRC16 start=payload_a
end=payload_b`. -/
def checksumF : FieldSpec :=
  { name := "checksum", kind := .prim (.uintT 2) .little, is_checksum := true,
    algorithm := "CRC16", start_field := some "payload_a",
    end_field := some "payload_b" }

/-- Scenario: `timestamp: u32 is_timestamp`. -/
def timestampF : FieldSpec :=
  { name := "timestamp", kind := .prim (.uintT 4) .little, is_timestamp := true }

/-- Scenario: `payload_a: u8 = 0x01`. -/
def payloadAF : FieldSpec :=
  { name := "payload_a", kind := .prim (.uintT 1) .little, default := .int 1 }

/-- Scenario: `payload_b: u8 = 0x02`. -/
def payloadBF : FieldSpec :=
  { name := "payload_b", kind := .prim (.uintT 1) .little, default := .int 2 }

def c4schema : List FieldSpec := [syncF, checksumF, timestampF, payloadAF, payloadBF]

/-- Scenario (C3): a UInt8-backed `IntEnum` field whose declared members
are 0 (`OK`) and 1 (`ERR`). -/
def statusEnumF : FieldSpec :=
  { name := "status", kind := .enum (.uintT 1) .little [0, 1] }

def c3schema : List FieldSpec := [statusEnumF]

/-- Scenario (C2): a registered message `disc: u8 is_discriminator = 0xAA;
payload: u8`. -/
def discF : FieldSpec :=
  { name := "disc", kind := .prim (.uintT 1) .little, is_discriminator := true,
    default := .int 0xAA }

def payloadF : FieldSpec :=
  { name := "payload", kind := .prim (.uintT 1) .little }

def c2schema : List FieldSpec := [discF, payloadF]

def c2registry : List RegEntry :=
  [{ disc_offset := 0, disc_value := 0xAA, disc_kind := .prim (.uintT 1) .little,
     schema := c2schema }]

/-- Scenario (C1 counterexample): `a: u8; l: u16 is_length start=a end=a`. -/
def aFieldF : FieldSpec :=
  { name := "a", kind := .prim (.uintT 1) .little }

def lFieldF : FieldSpec :=
  { name := "l", kind := .prim (.uintT 2) .little, is_length := true,
    start_field := some "a", end_field := some "a" }

def c1schema : List FieldSpec := [aFieldF, lFieldF]

/-! ## Theorems for the concrete scenarios -/

/-- C6: for the schema `magic: u16 big = 0xCAFE; version: u8 = 1;
value: u16 little = 0x1234`, serializing the default instance produces
exactly the bytes `CA FE 01 34 12`, the layout compiler flushes the fixed
run on the endianness change (the plan is the big run `[magic]` followed by
the little run `[version, value]`), and `from_bytes` applied to those bytes
restores all three field values. -/
theorem C6_endianness_mix_roundtrip :
    (msgSerialize c6schema (defaultInstance c6schema) 0).map Prod.fst =
      some [0xCA, 0xFE, 0x01, 0x34, 0x12] ∧
    compilePlan c6schema =
      [.structRun [magicF], .structRun [versionF, valueF]] ∧
    msgFromBytes c6schema [0xCA, 0xFE, 0x01, 0x34, 0x12] =
      some ([("magic", .int 0xCAFE), ("version", .int 1), ("value", .int 0x1234)], 5) :=
  ⟨rfl, rfl, rfl⟩

/-- C3 (code bug): for the schema with one UInt8-backed enum field with
members `{0, 1}`, `Message.from_bytes` on the buffer `[0x05]` does not fall
through to the raw integer: the unguarded `field.enum_cls(val)` conversion
raises `ValueError` (modelled `none`), although `EnumField.from_bytes`
itself — dead code for struct-run fields — does return the raw 5. -/
theorem C3_enum_fallthrough_bug :
    msgFromBytes c3schema [5] = Option.none ∧
    FieldKind.fieldFromBytes (.enum (.uintT 1) .little [0, 1]) [5] =
      some (.int 5, 1) :=
  ⟨rfl, rfl⟩

/-- C2 (code bug): with the `disc: u8 = 0xAA; payload: u8` message
registered, `from_bytes` decodes the complete frame `AA 07`, yet
`StreamHandler.feed` emits nothing on `99 AA 07` (one garbage byte, then
that complete frame) — and not even on the bare frame `AA 07`: feed hands
`Registry.deserialize` a `memoryview`, whose first use
`data.startswith(start_sym)` raises `AttributeError`, caught by the
generic handler into the one-byte resync on every iteration, so the whole
buffer — valid message included — is dropped byte by byte with the queue
left empty.  The claim's "the next complete message is still produced"
never holds. -/
theorem C2_feed_never_emits :
    feed c2registry [] [0x99, 0xAA, 0x07] [] = ([], []) ∧
    feed c2registry [] [0xAA, 0x07] [] = ([], []) ∧
    msgFromBytes c2schema [0xAA, 0x07] =
      some ([("disc", .int 0xAA), ("payload", .int 0x07)], 2) :=
  ⟨rfl, rfl, rfl⟩

/-! ### C4: length and CRC-16 backpatch -/

/-- Glue: `Message.serialize` from the values of its three stages. -/
theorem msgSerialize_eq {schema : List FieldSpec} {inst : List (String × Value)}
    {now : Int} {buf buf1 buf2 : Bytes} {info : List (String × Nat × Nat)}
    {lps cps : List (FieldSpec × Nat)} {inst1 : List (String × Value)}
    (h1 : pass1 now (compilePlan schema) inst 0 = some (buf, info, lps, cps, inst1))
    (h2 : applyLengths info lps buf = some buf1)
    (h3 : applyChecksums info cps buf1 = some buf2) :
    msgSerialize schema inst now = some (buf2, inst1) := by
  unfold msgSerialize
  rw [h1]
  show Option.bind (applyLengths info lps buf) _ = _
  rw [h2]
  show Option.bind (applyChecksums info cps buf1) _ = _
  rw [h3]
  rfl

/-- Pass 1 of the C4 run, with the timestamp slot's packed bytes given. -/
theorem c4_encodeRun (now : Int) (t0 t1 t2 t3 : Nat)
    (hpack : primPack (.uintT 4) .little (.int now) = some [t0, t1, t2, t3]) :
    encodeRun now (defaultInstance c4schema)
      [syncF, checksumF, timestampF, payloadAF, payloadBF] 0 =
      some ([0xAA, 0, 0, t0, t1, t2, t3, 1, 2],
        [("sync", 0, 1), ("checksum", 1, 2), ("timestamp", 3, 4),
         ("payload_a", 7, 1), ("payload_b", 8, 1)],
        [], [(checksumF, 1)]) := by
  have h170 : primPack (.uintT 1) .little (.int 170) = some [170] := by rfl
  have hz : primPack (.uintT 2) .little (.int 0) = some [0, 0] := by rfl
  have hp1 : primPack (.uintT 1) .little (.int 1) = some [1] := by rfl
  have hp2 : primPack (.uintT 1) .little (.int 2) = some [2] := by rfl
  simp +decide [encodeRun, runPrimOf, runFieldValue, lookupValue, defaultInstance,
    c4schema, syncF, checksumF, timestampF, payloadAF, payloadBF, hpack,
    h170, hz, hp1, hp2, PrimType.size, Option.bind, List.lookup]

theorem c4_pass1 (now : Int) (t0 t1 t2 t3 : Nat)
    (hpack : primPack (.uintT 4) .little (.int now) = some [t0, t1, t2, t3]) :
    pass1 now (compilePlan c4schema) (defaultInstance c4schema) 0 =
      some ([0xAA, 0, 0, t0, t1, t2, t3, 1, 2],
        [("sync", 0, 1), ("checksum", 1, 2), ("timestamp", 3, 4),
         ("payload_a", 7, 1), ("payload_b", 8, 1)],
        [], [(checksumF, 1)], defaultInstance c4schema) := by
  have hplan : compilePlan c4schema =
      [.structRun [syncF, checksumF, timestampF, payloadAF, payloadBF]] := by rfl
  rw [hplan]
  simp [pass1, c4_encodeRun now t0 t1 t2 t3 hpack, Option.bind]

/-- Pass 2b of the C4 scenario: the slot range is `[7, 9)` — the two
payload bytes — and `crc16([01, 02]) = 0x0E7C` is written at offset 1. -/
theorem c4_checksum_patch (t0 t1 t2 t3 : Nat) :
    applyChecksums
      [("sync", 0, 1), ("checksum", 1, 2), ("timestamp", 3, 4),
       ("payload_a", 7, 1), ("payload_b", 8, 1)]
      [(checksumF, 1)] [0xAA, 0, 0, t0, t1, t2, t3, 1, 2] =
      some [0xAA, 0x7C, 0x0E, t0, t1, t2, t3, 1, 2] := by
  have hcalc : Checksums.calculate "CRC16" [1, 2] = 3708 := by rfl
  have hcrc : primPack (.uintT 2) .little (.int (3708 : Int)) = some [0x7C, 0x0E] := by rfl
  simp +decide [applyChecksums, checksumF, runPrimOf, writeAt, List.lookup,
    hcalc, hcrc, Option.bind]

theorem c4_serialize_shape (now : Int) (t0 t1 t2 t3 : Nat)
    (hpack : primPack (.uintT 4) .little (.int now) = some [t0, t1, t2, t3]) :
    msgSerialize c4schema (defaultInstance c4schema) now =
      some ([0xAA, 0x7C, 0x0E, t0, t1, t2, t3, 0x01, 0x02],
        defaultInstance c4schema) :=
  msgSerialize_eq (c4_pass1 now t0 t1 t2 t3 hpack) rfl (c4_checksum_patch t0 t1 t2 t3)

/-- C4 (amended): for the schema `sync:u8=0xAA; checksum:u16 is_checksum
algo=CRC16 start=payload_a end=payload_b; timestamp:u32 is_timestamp;
payload_a:u8=0x01; payload_b:u8=0x02`, serialize produces exactly 9 bytes
and bytes [1..3) hold CRC-16/CCITT (init 0xFFFF, poly 0x1021, no reflect)
of the payload bytes {0x01, 0x02} — which is 0x0E7C, written little-endian
as `7C 0E` (not 0x1373/`73 13` as the claim states: 0x1373 is the value of
the init-0 variant of the same polynomial). -/
theorem C4_crc16_backpatch (now : Int) (h0 : 0 ≤ now) (h1 : now < 2 ^ 32) :
    ∃ bs inst1,
      msgSerialize c4schema (defaultInstance c4schema) now = some (bs, inst1) ∧
      bs.length = 9 ∧ bs.get? 1 = some 0x7C ∧ bs.get? 2 = some 0x0E ∧
      Checksums.crc16 [0x01, 0x02] = 0x0E7C := by
  have hpack : primPack (.uintT 4) .little (.int now) = some (toLEBytes 4 now.toNat) := by
    simp only [primPack]
    rw [if_pos]
    · rfl
    · refine ⟨h0, ?_⟩
      norm_num
      omega
  exact ⟨_, _, c4_serialize_shape now _ _ _ _ hpack, rfl, rfl, rfl, rfl⟩

/-- C4 witness: the amended statement at `now = 0`. -/
theorem C4_crc16_backpatch_witness :
    ∃ bs inst1,
      msgSerialize c4schema (defaultInstance c4schema) 0 = some (bs, inst1) ∧
      bs.length = 9 ∧ bs.get? 1 = some 0x7C ∧ bs.get? 2 = some 0x0E ∧
      Checksums.crc16 [0x01, 0x02] = 0x0E7C :=
  C4_crc16_backpatch 0 (by norm_num) (by norm_num)

/-! ### C5: direction-magnitude fixed point -/

/-- Modelled from the claim's words (with the amendment: `int(...)`
truncation toward zero, where the claim said `round`): the direction-
magnitude encoding stores `trunc(|value|·2^F)` masked to I+F bits,
together with a sign bit at bit position I+F. -/
def dirMagSpec (ib fb : Nat) (q : Rat) : Nat :=
  let magnitude := (pyTrunc (|q| * 2 ^ fb)).toNat &&& ((1 <<< (ib + fb)) - 1)
  magnitude ||| ((if q < 0 then 1 else 0) <<< (ib + fb))

/-- `FixedPointField.to_bytes` with encoding 2 packs exactly the
direction-magnitude integer. -/
theorem fpToBytes_enc2_shape (ib fb : Nat) (e : Endian) (q : Rat) (p : PrimType)
    (hp : FieldKind.fpPrim ib fb 2 = some p) :
    FieldKind.fpToBytes ib fb 2 e q = primPack p e (.int (dirMagSpec ib fb q)) := by
  unfold FieldKind.fpToBytes
  rw [hp]
  simp [dirMagSpec, Option.bind_eq_bind, Option.some_bind]

/-- Encoding 2 always selects an unsigned backing primitive. -/
theorem fpPrim_enc2_unsigned (ib fb : Nat)
    (hw : FieldKind.fpTotalBits ib fb 2 ≤ 64) :
    ∃ w, FieldKind.fpPrim ib fb 2 = some (.uintT w) := by
  unfold FieldKind.fpPrim
  by_cases h8 : FieldKind.fpTotalBits ib fb 2 ≤ 8
  · exact ⟨1, by simp [h8]⟩
  · by_cases h16 : FieldKind.fpTotalBits ib fb 2 ≤ 16
    · exact ⟨2, by simp [h8, h16]⟩
    · by_cases h32 : FieldKind.fpTotalBits ib fb 2 ≤ 32
      · exact ⟨4, by simp [h8, h16, h32]⟩
      · exact ⟨8, by simp [h8, h16, h32, hw]⟩

/-- C5 (amended): for every fixed-point field with I integer bits, F
fractional bits and direction-magnitude encoding (encoding 2), `to_bytes`
stores magnitude = trunc(|value|·2^F) — truncation toward zero, not
rounding — masked to I+F bits, together with a sign bit at bit position
I+F, in an unsigned backing primitive. -/
theorem C5_dirmag_encoding (ib fb : Nat) (e : Endian) (q : Rat)
    (hw : FieldKind.fpTotalBits ib fb 2 ≤ 64) :
    ∃ w, FieldKind.fpPrim ib fb 2 = some (.uintT w) ∧
      FieldKind.fpToBytes ib fb 2 e q =
        primPack (.uintT w) e (.int (dirMagSpec ib fb q)) := by
  obtain ⟨w, hpw⟩ := fpPrim_enc2_unsigned ib fb hw
  exact ⟨w, hpw, fpToBytes_enc2_shape ib fb e q _ hpw⟩

/-- C5 witness: the amended statement at I=7, F=8, value −5.0, whose
direction-magnitude word is 0x8500 and little-endian bytes are `00 85`. -/
theorem C5_dirmag_encoding_witness :
    (∃ w, FieldKind.fpPrim 7 8 2 = some (.uintT w) ∧
      FieldKind.fpToBytes 7 8 2 .little (-5) =
        primPack (.uintT w) .little (.int (dirMagSpec 7 8 (-5)))) ∧
    dirMagSpec 7 8 (-5) = 0x8500 ∧
    FieldKind.fpToBytes 7 8 2 .little (-5) = some [0x00, 0x85] := by
  have hd : dirMagSpec 7 8 (-5) = 0x8500 := by
    unfold dirMagSpec pyTrunc
    norm_num
    decide
  refine ⟨C5_dirmag_encoding 7 8 .little (-5) (by decide), hd, ?_⟩
  rw [fpToBytes_enc2_shape 7 8 .little (-5) (.uintT 2) (by rfl), hd]
  decide

/-- C5 counterexample: for I=7, F=8 and the value −27/2560 (so that
`|value|·2^F = 2.7`), the code truncates the magnitude to 2 and emits
`02 80`, while the claim's `round(|value|·2^F) = 3` would emit `03 80`. -/
theorem C5_round_refuted :
    FieldKind.fpToBytes 7 8 2 .little (-(27 / 2560)) = some [0x02, 0x80] ∧
    round (|(-(27 / 2560) : Rat)| * 2 ^ 8) = 3 ∧
    primPack (.uintT 2) .little
      (.int (((round (|(-(27 / 2560) : Rat)| * 2 ^ 8)).toNat &&&
          ((1 <<< 15) - 1)) ||| (1 <<< 15) : Nat)) = some [0x03, 0x80] ∧
    ([0x02, 0x80] : Bytes) ≠ [0x03, 0x80] := by
  have habs : |(-(27 / 2560) : Rat)| * 2 ^ 8 = 27 / 10 := by
    rw [abs_neg, abs_of_nonneg (by norm_num : (0 : Rat) ≤ 27 / 2560)]
    norm_num
  have hround : round (|(-(27 / 2560) : Rat)| * 2 ^ 8) = 3 := by
    rw [habs, round_eq]
    norm_num
  have hd : dirMagSpec 7 8 (-(27 / 2560)) = 0x8002 := by
    unfold dirMagSpec pyTrunc
    rw [habs]
    norm_num
    decide
  refine ⟨?_, hround, ?_, by decide⟩
  · rw [fpToBytes_enc2_shape 7 8 .little (-(27 / 2560)) (.uintT 2) (by rfl), hd]
    decide
  · rw [hround]
    decide

/-! ### C7: bit-group LSB pack/unpack round trip -/

open FieldKind

def lsbVal : List (Nat × Nat) → Nat
  | [] => 0
  | (w, v) :: rest => v + 2 ^ w * lsbVal rest

def bitPairs : List Bit → List Nat → List (Nat × Nat)
  | b :: bits, v :: vals => (b.width, v) :: bitPairs bits vals
  | _, _ => []

def bitEntries : List Bit → List Nat → List (String × Nat)
  | b :: bits, v :: vals => (b.name, v) :: bitEntries bits vals
  | _, _ => []

theorem lsbVal_lt (pairs : List (Nat × Nat)) (h : ∀ p ∈ pairs, p.2 < 2 ^ p.1) :
    lsbVal pairs < 2 ^ ((pairs.map Prod.fst).sum) := by
  induction pairs with
  | nil => simp [lsbVal]
  | cons p rest ih =>
    obtain ⟨w, v⟩ := p
    simp only [lsbVal, List.map_cons, List.sum_cons]
    have h1 : v < 2 ^ w := h (w, v) (by simp)
    have h2 : lsbVal rest < 2 ^ ((rest.map Prod.fst).sum) :=
      ih (fun p hp => h p (by simp [hp]))
    have h3 : v + 2 ^ w * lsbVal rest < 2 ^ w * (1 + lsbVal rest) := by
      have := Nat.mul_add (2 ^ w) 1 (lsbVal rest)
      omega
    calc v + 2 ^ w * lsbVal rest
        < 2 ^ w * (1 + lsbVal rest) := h3
      _ ≤ 2 ^ w * 2 ^ ((rest.map Prod.fst).sum) := Nat.mul_le_mul_left _ (by omega)
      _ = 2 ^ (w + (rest.map Prod.fst).sum) := by rw [pow_add]

theorem bitPackGo_lsb_eq (entries : List (String × Nat)) (tw : Nat)
    (bits : List Bit) (vals : List Nat) (shift packed : Nat)
    (hl : List.Forall₂
      (fun (b : Bit) (v : Nat) => entries.lookup b.name = some v ∧ v < 2 ^ b.width)
      bits vals)
    (hp : packed < 2 ^ shift) :
    bitPackGo entries .lsb tw bits shift packed =
      packed + 2 ^ shift * lsbVal (bitPairs bits vals) := by
  induction hl generalizing shift packed with
  | nil => simp [bitPackGo, lsbVal, bitPairs]
  | cons hbv hrest ih =>
    rename_i b v bits' vals'
    obtain ⟨hlook, hv⟩ := hbv
    simp only [bitPackGo, hlook, Option.getD_some, Nat.one_shiftLeft,
      bitPairs, lsbVal]
    rw [Nat.and_pow_two_sub_one_of_lt_two_pow hv, Nat.shiftLeft_eq]
    have hor : packed ||| v * 2 ^ shift = packed + v * 2 ^ shift := by
      rw [Nat.lor_comm, Nat.mul_comm v (2 ^ shift), ← Nat.mul_add_lt_is_or hp]
      ring
    rw [hor]
    have hlt : packed + v * 2 ^ shift < 2 ^ (shift + b.width) := by
      have hexp : 2 ^ shift * (1 + v) ≤ 2 ^ shift * 2 ^ b.width :=
        Nat.mul_le_mul_left _ (by omega)
      have hm := Nat.mul_add (2 ^ shift) 1 v
      rw [pow_add]
      have : v * 2 ^ shift = 2 ^ shift * v := Nat.mul_comm _ _
      omega
    rw [ih (shift + b.width) (packed + v * 2 ^ shift) hlt, pow_add]
    ring

theorem bitUnpackGo_lsb_eq (tw raw : Nat) (bits : List Bit) (vals : List Nat)
    (shift K : Nat)
    (hv : List.Forall₂ (fun (b : Bit) (v : Nat) => v < 2 ^ b.width) bits vals)
    (hraw : raw >>> shift =
      lsbVal (bitPairs bits vals) + 2 ^ ((bits.map Bit.width).sum) * K) :
    bitUnpackGo .lsb tw raw bits shift = bitEntries bits vals := by
  induction hv generalizing shift K with
  | nil => simp [bitUnpackGo, bitEntries]
  | cons hbv hrest ih =>
    rename_i b v bits' vals'
    simp only [bitPairs, lsbVal, List.map_cons, List.sum_cons] at hraw
    simp only [bitUnpackGo, Nat.one_shiftLeft, bitEntries]
    have hre : v + 2 ^ b.width * lsbVal (bitPairs bits' vals') +
        2 ^ (b.width + (bits'.map Bit.width).sum) * K =
        v + 2 ^ b.width * (lsbVal (bitPairs bits' vals') +
          2 ^ ((bits'.map Bit.width).sum) * K) := by
      rw [pow_add]; ring
    have h1 : raw >>> shift &&& 2 ^ b.width - 1 = v := by
      rw [Nat.and_pow_two_sub_one_eq_mod, hraw, hre, Nat.add_mul_mod_self_left,
        Nat.mod_eq_of_lt hbv]
    have h2 : bitUnpackGo .lsb tw raw bits' (shift + b.width) = bitEntries bits' vals' := by
      refine ih (shift + b.width) K ?_
      rw [Nat.shiftRight_add, hraw, hre, Nat.shiftRight_eq_div_pow,
        Nat.add_mul_div_left _ _ (Nat.two_pow_pos b.width),
        Nat.div_eq_of_lt hbv, Nat.zero_add]
    rw [h1, h2]



theorem bitEntries_lookup (bits : List Bit) (vals : List Nat)
    (hlen : vals.length = bits.length)
    (hnd : (bits.map Bit.name).Nodup) :
    List.Forall₂
      (fun (b : Bit) (v : Nat) => (bitEntries bits vals).lookup b.name = some v)
      bits vals := by
  induction bits generalizing vals with
  | nil =>
    cases vals with
    | nil => exact .nil
    | cons v vals' => simp at hlen
  | cons b bits' ih =>
    cases vals with
    | nil => simp at hlen
    | cons v vals' =>
      rw [List.map_cons, List.nodup_cons] at hnd
      obtain ⟨hnotin, hnd'⟩ := hnd
      have htail := ih vals' (by simpa using hlen) hnd'
      refine List.Forall₂.cons ?_ ?_
      · simp [bitEntries, List.lookup]
      · rw [List.forall₂_iff_get] at htail ⊢
        obtain ⟨hl2, hg⟩ := htail
        refine ⟨hl2, fun i h1 h2 => ?_⟩
        have hmem : bits'.get ⟨i, h1⟩ ∈ bits' := List.get_mem _ _ _
        have hneq : (bits'.get ⟨i, h1⟩).name ≠ b.name := by
          intro hEq
          exact hnotin (hEq ▸ List.mem_map_of_mem Bit.name hmem)
        simp only [bitEntries, List.lookup]
        rw [show ((bits'.get ⟨i, h1⟩).name == b.name) = false by simpa using hneq]
        exact hg i h1 h2

theorem bitPairs_mem_lt (bits : List Bit) (vals : List Nat)
    (hv : List.Forall₂ (fun (b : Bit) (v : Nat) => v < 2 ^ b.width) bits vals) :
    ∀ p ∈ bitPairs bits vals, p.2 < 2 ^ p.1 := by
  induction hv with
  | nil => simp [bitPairs]
  | cons hbv hrest ih =>
    intro p hp
    rw [bitPairs] at hp
    rcases List.mem_cons.mp hp with h | h
    · subst h; exact hbv
    · exact ih p h

theorem bitPairs_widths (bits : List Bit) (vals : List Nat)
    (hlen : vals.length = bits.length) :
    ((bitPairs bits vals).map Prod.fst).sum = (bits.map Bit.width).sum := by
  induction bits generalizing vals with
  | nil => cases vals <;> simp [bitPairs]
  | cons b bits' ih =>
    cases vals with
    | nil => simp at hlen
    | cons v vals' =>
      simp only [bitPairs, List.map_cons, List.sum_cons]
      rw [ih vals' (by simpa using hlen)]

/-- C7: for every bit-group whose bit widths sum to at most the backing
primitive's width and every mapping assigning each bit name an integer in
[0, 2^w), LSB packing (`BitField.to_bytes`) followed by LSB unpacking
(`BitField.from_bytes`) returns the same mapping.  (The mapping is the
dict `bitEntries bits vals`; distinct bit names make it a mapping.) -/
theorem C7_bitfield_lsb_roundtrip (bits : List Bit) (vals : List Nat) (backing : Nat) (e : Endian)
    (hv : List.Forall₂ (fun (b : Bit) (v : Nat) => v < 2 ^ b.width) bits vals)
    (hnd : (bits.map Bit.name).Nodup)
    (hsum : (bits.map Bit.width).sum ≤ 8 * backing) :
    ∃ bs, FieldKind.bitFieldToBytes bits backing e .lsb (.dict (bitEntries bits vals)) =
        some bs ∧
      FieldKind.bitFieldFromBytes bits backing e .lsb bs =
        some (.dict (bitEntries bits vals)) := by
  have hlen : vals.length = bits.length := hv.length_eq.symm
  have hcomb : List.Forall₂
      (fun (b : Bit) (v : Nat) =>
        (bitEntries bits vals).lookup b.name = some v ∧ v < 2 ^ b.width)
      bits vals := by
    have h1 := bitEntries_lookup bits vals hlen hnd
    rw [List.forall₂_iff_get] at h1 hv ⊢
    exact ⟨h1.1, fun i hi1 hi2 => ⟨h1.2 i hi1 hi2, hv.2 i hi1 hi2⟩⟩
  have hpack : bitPackDict bits .lsb (bitEntries bits vals) =
      lsbVal (bitPairs bits vals) := by
    unfold bitPackDict
    rw [bitPackGo_lsb_eq (bitEntries bits vals) _ bits vals 0 0 hcomb (by norm_num)]
    simp
  have hlt : lsbVal (bitPairs bits vals) < 2 ^ (8 * backing) := by
    calc lsbVal (bitPairs bits vals)
        < 2 ^ (((bitPairs bits vals).map Prod.fst).sum) :=
          lsbVal_lt _ (bitPairs_mem_lt bits vals hv)
      _ = 2 ^ ((bits.map Bit.width).sum) := by rw [bitPairs_widths bits vals hlen]
      _ ≤ 2 ^ (8 * backing) := Nat.pow_le_pow_right (by norm_num) hsum
  have hlt256 : lsbVal (bitPairs bits vals) < 256 ^ backing := by
    rw [← two_pow_mul_eq]; exact hlt
  refine ⟨packNatE e backing (lsbVal (bitPairs bits vals)), ?_, ?_⟩
  · unfold FieldKind.bitFieldToBytes
    simp only [hpack, primPack]
    rw [if_pos]
    · simp
    · constructor
      · exact Int.ofNat_nonneg _
      · exact_mod_cast hlt
  · unfold FieldKind.bitFieldFromBytes
    simp only [primUnpack, unpackNatE_packNatE_of_lt e hlt256]
    rw [show (Int.toNat ↑(lsbVal (bitPairs bits vals))) = lsbVal (bitPairs bits vals) by omega]
    unfold bitUnpackDict
    rw [bitUnpackGo_lsb_eq _ _ bits vals 0 0 hv (by simp [Nat.shiftRight_zero])]

/-- The bit layout of the concrete C7 scenario:
`enable:1, mode:3, color:4` in LSB order over a u8 backing. -/
def c7bits : List Bit := [⟨1, "enable"⟩, ⟨3, "mode"⟩, ⟨4, "color"⟩]

/-- C7 witness: the round trip at `{enable=1, mode=5, color=3}` over the
u8 backing, whose packed byte is `0b0011_1011 = 0x3B`. -/
theorem C7_bitfield_lsb_roundtrip_witness :
    (∃ bs, bitFieldToBytes c7bits 1 .little .lsb
        (.dict (bitEntries c7bits [1, 5, 3])) = some bs ∧
      bitFieldFromBytes c7bits 1 .little .lsb bs =
        some (.dict (bitEntries c7bits [1, 5, 3]))) ∧
    bitFieldToBytes c7bits 1 .little .lsb
      (.dict [("enable", 1), ("mode", 5), ("color", 3)]) = some [0x3B] :=
  ⟨C7_bitfield_lsb_roundtrip c7bits [1, 5, 3] 1 .little
      (.cons (by norm_num) (.cons (by norm_num) (.cons (by norm_num) .nil)))
      (by decide) (by decide),
    by rfl⟩

/-! ### C8 and C9: the ASCII framer -/

/-- An ASCII code of an uppercase hexadecimal digit. -/
def isUpperHexDigit (d : Nat) : Prop := (48 ≤ d ∧ d ≤ 57) ∨ (65 ≤ d ∧ d ≤ 70)

instance (d : Nat) : Decidable (isUpperHexDigit d) := by
  unfold isUpperHexDigit
  infer_instance

/-- The XOR of bytes below 256 stays below 256. -/
theorem xor_sum_lt (data : Bytes) (h : ∀ b ∈ data, b < 256) :
    Checksums.xor_sum data < 256 := by
  unfold Checksums.xor_sum
  suffices hgen : ∀ acc, acc < 256 → data.foldl (· ^^^ ·) acc < 256 from
    hgen 0 (by norm_num)
  induction data with
  | nil => intro acc hacc; simpa using hacc
  | cons b rest ih =>
    intro acc hacc
    have hb : b < 256 := h b (by simp)
    have hx : acc ^^^ b < 256 := by
      have := Nat.xor_lt_two_pow (n := 8) (by simpa using hacc) (by simpa using hb)
      simpa using this
    simpa using ih (fun x hx => h x (by simp [hx])) (acc ^^^ b) hx

theorem hexDigitsCore_zero (fuel : Nat) : hexDigitsCore fuel 0 = [] := by
  cases fuel <;> simp [hexDigitsCore]

theorem hexUpperDigit_isHex {d : Nat} (h : d < 16) :
    isUpperHexDigit (hexUpperDigit d) := by
  unfold hexUpperDigit isUpperHexDigit
  split <;> omega

theorem hexDigitsLE_one_digit {n : Nat} (h0 : n ≠ 0) (h16 : n < 16) :
    hexDigitsLE n = [hexUpperDigit (n % 16)] := by
  obtain ⟨m, rfl⟩ : ∃ m, n = m + 1 := ⟨n - 1, by omega⟩
  show hexDigitsCore (m + 1) (m + 1) = _
  rw [hexDigitsCore]
  rw [if_neg h0, Nat.div_eq_of_lt h16, hexDigitsCore_zero]

theorem hexDigitsLE_two_digits {n : Nat} (h16 : 16 ≤ n) (h256 : n < 256) :
    hexDigitsLE n = [hexUpperDigit (n % 16), hexUpperDigit (n / 16)] := by
  obtain ⟨m, rfl⟩ : ∃ m, n = m + 1 := ⟨n - 1, by omega⟩
  show hexDigitsCore (m + 1) (m + 1) = _
  rw [hexDigitsCore, if_neg (by omega)]
  have hq1 : (m + 1) / 16 ≠ 0 := by omega
  have hq2 : (m + 1) / 16 < 16 := by omega
  obtain ⟨k, hk⟩ : ∃ k, m = k + 1 := ⟨m - 1, by omega⟩
  subst hk
  rw [hexDigitsCore, if_neg hq1, Nat.div_eq_of_lt hq2, hexDigitsCore_zero,
    Nat.mod_eq_of_lt hq2]

/-- `f"{n:02X}"` of a byte value is exactly two uppercase hex digits. -/
theorem pyFormatHex_two {n : Nat} (h : n < 256) :
    (pyFormatHex 2 n).length = 2 ∧ ∀ d ∈ pyFormatHex 2 n, isUpperHexDigit d := by
  by_cases h0 : n = 0
  · subst h0
    have hx : pyFormatHex 2 0 = [48, 48] := rfl
    rw [hx]
    refine ⟨rfl, ?_⟩
    intro d hd
    simp only [List.mem_cons, List.not_mem_nil, or_false] at hd
    rcases hd with rfl | rfl <;> simp [isUpperHexDigit]
  · by_cases h16 : n < 16
    · have hx : pyFormatHex 2 n = [48, hexUpperDigit (n % 16)] := by
        simp [pyFormatHex, h0, hexDigitsLE_one_digit h0 h16, List.replicate]
      rw [hx]
      refine ⟨rfl, ?_⟩
      intro d hd
      simp only [List.mem_cons, List.not_mem_nil, or_false] at hd
      rcases hd with rfl | rfl
      · simp [isUpperHexDigit]
      · exact hexUpperDigit_isHex (Nat.mod_lt _ (by norm_num))
    · have hx : pyFormatHex 2 n = [hexUpperDigit (n / 16), hexUpperDigit (n % 16)] := by
        simp [pyFormatHex, h0, hexDigitsLE_two_digits (by omega) h]
      rw [hx]
      refine ⟨rfl, ?_⟩
      intro d hd
      simp only [List.mem_cons, List.not_mem_nil, or_false] at hd
      rcases hd with rfl | rfl
      · exact hexUpperDigit_isHex (by omega)
      · exact hexUpperDigit_isHex (Nat.mod_lt _ (by norm_num))

/-- C8: when the global use-checksum flag is true, every serialized ASCII
frame ends (before the end sentinel) with exactly two uppercase hex digits
equal to the XOR of the UTF-8 bytes of the start sentinel plus header plus
body (`stringContent`, everything up to the checksum position); when the
flag is false the checksum is omitted entirely. -/
theorem C8_ascii_checksum (cfg : ProtocolConfig) (schema : List SFieldSpec)
    (inst : List (String × SVal)) (msg_id : Nat)
    (hb : ∀ b ∈ stringContent cfg schema inst msg_id, b < 256) :
    (cfg.USE_CHECKSUM = true →
      stringSerialize cfg schema inst msg_id =
        stringContent cfg schema inst msg_id ++
          pyFormatHex 2 (Checksums.xor_sum (stringContent cfg schema inst msg_id)) ++
          cfg.END_SYMBOL ∧
      (pyFormatHex 2 (Checksums.xor_sum (stringContent cfg schema inst msg_id))).length = 2 ∧
      ∀ d ∈ pyFormatHex 2 (Checksums.xor_sum (stringContent cfg schema inst msg_id)),
        isUpperHexDigit d) ∧
    (cfg.USE_CHECKSUM = false →
      stringSerialize cfg schema inst msg_id =
        stringContent cfg schema inst msg_id ++ cfg.END_SYMBOL) := by
  have hxor := xor_sum_lt _ hb
  obtain ⟨hlen2, hhex⟩ := pyFormatHex_two hxor
  constructor
  · intro huse
    refine ⟨?_, hlen2, hhex⟩
    unfold stringSerialize
    rw [huse]
    simp
  · intro hno
    unfold stringSerialize
    rw [hno]
    simp

/-- The `Status` string-enum of the scenario (`OK="OK"`, `ERROR="ERR"`,
`WARNING="WARN"`). -/
def statusMembers : List (String × List Nat) :=
  [("OK", asciiBytes "OK"), ("ERROR", asciiBytes "ERR"), ("WARNING", asciiBytes "WARN")]

/-- The C9 string-protocol schema: `cmd_type='TEST'`, `cmd_str='KITCHEN'`,
`msg_id:u8=99`, `label:fixed-string[10]='MYLABEL'`, `status:enum(String)=ERROR`. -/
def c9schema : List SFieldSpec := [
  { name := "msg_id", kind := .sPrim, default := .svInt 99 },
  { name := "cmd_type", kind := .sString, default := .svStr (asciiBytes "TEST") },
  { name := "cmd_str", kind := .sString, default := .svStr (asciiBytes "KITCHEN") },
  { name := "label", kind := .sString, default := .svStr (asciiBytes "MYLABEL") },
  { name := "status", kind := .sEnum statusMembers, default := .svMember "ERROR" }]

/-- The populated C9 instance. -/
def c9inst : List (String × SVal) := [
  ("msg_id", .svInt 99),
  ("cmd_type", .svStr (asciiBytes "TEST")),
  ("cmd_str", .svStr (asciiBytes "KITCHEN")),
  ("label", .svStr (asciiBytes "MYLABEL")),
  ("status", .svMember "ERROR")]

/-- C8 witness: the C8 statement at the default protocol configuration and
the concrete C9 schema and instance. -/
theorem C8_ascii_checksum_witness :
    (ProtocolConfig.USE_CHECKSUM {} = true →
      stringSerialize {} c9schema c9inst 99 =
        stringContent {} c9schema c9inst 99 ++
          pyFormatHex 2 (Checksums.xor_sum (stringContent {} c9schema c9inst 99)) ++
          ProtocolConfig.END_SYMBOL {} ∧
      (pyFormatHex 2 (Checksums.xor_sum (stringContent {} c9schema c9inst 99))).length = 2 ∧
      ∀ d ∈ pyFormatHex 2 (Checksums.xor_sum (stringContent {} c9schema c9inst 99)),
        isUpperHexDigit d) ∧
    (ProtocolConfig.USE_CHECKSUM {} = false →
      stringSerialize {} c9schema c9inst 99 =
        stringContent {} c9schema c9inst 99 ++ ProtocolConfig.END_SYMBOL {}) :=
  C8_ascii_checksum {} c9schema c9inst 99 (by decide)

/-- C9 (amended): for the C9 schema, serialize produces exactly the text
`<0063|TEST|KITCHEN|99;MYLABEL;ERROR;34>` — the fixed-length string is NOT
padded to its declared width in text mode (`StringField` has no
`to_string` override, so `str(value)` is emitted as is), and the XOR
checksum of the preceding bytes is 0x34. -/
theorem C9_string_frame_text :
    stringSerialize {} c9schema c9inst 99 =
      asciiBytes "<0063|TEST|KITCHEN|99;MYLABEL;ERROR;34>" := by rfl

/-- C9 counterexample: the serialized frame is not the claimed
`<0063|TEST|KITCHEN|99;MYLABEL   ;ERROR;CC>` (whose checksum per the
claim's own rule would be CC = 0x14): the label is not padded. -/
theorem C9_padded_label_refuted :
    stringSerialize {} c9schema c9inst 99 ≠
      asciiBytes "<0063|TEST|KITCHEN|99;MYLABEL   ;ERROR;14>" ∧
    Checksums.xor_sum (asciiBytes "<0063|TEST|KITCHEN|99;MYLABEL   ;ERROR;") = 0x14 :=
  ⟨by decide, by decide⟩

/-- C4 counterexample: at `now = 0` the serialized frame is
`AA 7C 0E 00 00 00 00 01 02`; byte 1 is 0x7C, not the 0x73 the claim
requires, and `crc16([01, 02])` is not 0x1373. -/
theorem C4_claimed_value_refuted :
    (msgSerialize c4schema (defaultInstance c4schema) 0).map Prod.fst =
      some [0xAA, 0x7C, 0x0E, 0, 0, 0, 0, 0x01, 0x02] ∧
    ([0xAA, 0x7C, 0x0E, 0, 0, 0, 0, 0x01, 0x02] : Bytes).get? 1 ≠ some 0x73 ∧
    Checksums.crc16 [0x01, 0x02] ≠ 0x1373 := by
  refine ⟨?_, by decide, by decide⟩
  rw [c4_serialize_shape 0 0 0 0 0 (by rfl)]
  rfl



/-! ### C1: the amended round-trip development -/

/-- Field kinds covered by the amended round-trip statement: dynamic-mode
arrays are excluded (their decode loop consumes the remaining buffer, so
they round-trip only as the final field of a message), and a bit-group must
have distinct bit names fitting its backing width. -/
def kindOk : FieldKind → Bool
  | .prim _ _ => true
  | .enum _ _ _ => true
  | .fixedPoint _ _ _ _ => true
  | .strFixed _ => true
  | .strDynamic => true
  | .bitfield bits backing _ _ =>
    decide ((bits.map Bit.name).Nodup) &&
      decide ((bits.map Bit.width).sum ≤ 8 * backing)
  | .array item .fixedM _ => kindOk item
  | .array _ .dynamicM _ => false

/-- A bit-group dict aligned with the declared bits: same names in bit
order, each value in `[0, 2^width)`. -/
def entriesOk : List Bit → List (String × Nat) → Bool
  | [], [] => true
  | b :: bits, (n, x) :: es =>
    (n = b.name) && (x < 2 ^ b.width) && entriesOk bits es
  | _, _ => false

/-- The value domain of the amended round-trip statement, per field kind. -/
def domOk : FieldKind → Value → Bool
  | .prim p _, v => decide (primDom p v)
  | .enum storage _ members, v =>
    match v with
    | .int i => decide (i ∈ members) && decide (primDom storage (.int i))
    | _ => false
  | .fixedPoint ib fb enc _, v =>
    match v with
    | .rat q =>
      if enc = 2 then decide (pyTrunc (|q| * 2 ^ fb) < 2 ^ (ib + fb))
      else
        match fpPrim ib fb enc with
        | some p => decide (primDom p (.int (pyTrunc (q * 2 ^ fb))))
        | Option.none => false
    | _ => false
  | .strFixed len, v =>
    match v with
    | .str s => decide (s.length ≤ len) && decide (s.getLast? ≠ some 0)
    | _ => false
  | .strDynamic, v =>
    match v with
    | .str s => decide (s.length < 2 ^ 32)
    | _ => false
  | .bitfield bits _ _ _, v =>
    match v with
    | .dict entries => entriesOk bits entries
    | _ => false
  | .array item .fixedM count, v =>
    match v with
    | .list vs => decide (vs.length = count) && vs.all (fun w => domOk item w)
    | _ => false
  | .array _ .dynamicM _, _ => false

/-- The round-trip relation of the claim: equality except that a
fixed-point value is quantised within `2 ^ (-F)` and arrays are compared
pointwise. -/
def rtRel : FieldKind → Value → Value → Prop
  | .fixedPoint _ fb _ _, v, v1 =>
    ∃ q q1, v = .rat q ∧ v1 = .rat q1 ∧ |q1 - q| ≤ ((2 : Rat) ^ fb)⁻¹
  | .array item _ _, v, v1 =>
    ∃ vs vs1, v = .list vs ∧ v1 = .list vs1 ∧ List.Forall₂ (rtRel item) vs vs1
  | _, v, v1 => v1 = v

theorem entriesOk_shape (bits : List Bit) (entries : List (String × Nat))
    (h : entriesOk bits entries = true) :
    entries = bitEntries bits (entries.map Prod.snd) ∧
    (entries.map Prod.snd).length = bits.length ∧
    List.Forall₂ (fun (b : Bit) (v : Nat) => v < 2 ^ b.width) bits
      (entries.map Prod.snd) := by
  induction bits generalizing entries with
  | nil =>
    cases entries with
    | nil => exact ⟨rfl, rfl, .nil⟩
    | cons p es => simp [entriesOk] at h
  | cons b bits ih =>
    cases entries with
    | nil => simp [entriesOk] at h
    | cons p es =>
      obtain ⟨n, x⟩ := p
      simp only [entriesOk, Bool.and_eq_true, decide_eq_true_eq] at h
      obtain ⟨⟨hn, hx⟩, hrest⟩ := h
      obtain ⟨h1, h2, h3⟩ := ih es hrest
      subst hn
      refine ⟨?_, by simpa using h2, List.Forall₂.cons hx h3⟩
      simp only [List.map_cons, bitEntries]
      rw [← h1]

/-- Python truncation differs from its argument by less than one. -/
theorem pyTrunc_near (x : Rat) : |(pyTrunc x : Rat) - x| ≤ 1 := by
  unfold pyTrunc
  split
  · rw [abs_le]
    constructor
    · have := Int.lt_floor_add_one x
      push_cast at this ⊢
      linarith
    · have := Int.floor_le x
      push_cast at this ⊢
      linarith
  · rw [abs_le]
    push_cast
    constructor
    · have := Int.floor_le (-x)
      linarith
    · have := Int.lt_floor_add_one (-x)
      linarith

/-- Dropping a NUL-padded tail restores a string with no trailing NUL. -/
theorem rstripNull_pad (s : Bytes) (k : Nat) (h : s.getLast? ≠ some 0) :
    FieldKind.rstripNull (s ++ List.replicate k 0) = s := by
  unfold FieldKind.rstripNull
  rw [List.reverse_append, List.reverse_replicate, List.dropWhile_append]
  have hrep : List.dropWhile (fun b => decide (b = 0)) (List.replicate k 0) = [] := by
    induction k with
    | zero => rfl
    | succ k ih => simp [List.replicate, List.dropWhile, ih]
  rw [hrep]
  simp only [List.isEmpty_nil, if_true]
  cases hs : s.reverse with
  | nil =>
    have : s = [] := by simpa using congrArg List.reverse hs
    simp [this]
  | cons a t =>
    have ha : a ≠ 0 := by
      have : s.getLast? = some a := by
        rw [← List.head?_reverse, hs]
        rfl
      intro h0
      exact h (by rw [this, h0])
    rw [List.dropWhile_cons_of_neg (by simpa using ha), ← hs,
      List.reverse_reverse]

end SerializerV2

namespace SerializerV2
open FieldKind

def noShort : FieldKind → Value → Bool
  | .array item .fixedM count, .list vs =>
    (count ≤ vs.length) && (vs.take count).all (fun v => noShort item v)
  | .array item .dynamicM _, .list vs => vs.all (fun v => noShort item v)
  | _, _ => true

theorem itemsToBytes_pure (f : Value → Option Bytes × Value) (vs : List Value)
    (hf : ∀ v ∈ vs, ∀ b v1, f v = (some b, v1) → v1 = v) :
    ∀ bs vs1, itemsToBytes f vs = (some bs, vs1) → vs1 = vs := by
  induction vs with
  | nil => intro bs vs1 h; simp [itemsToBytes] at h; simp [h.2.symm]
  | cons v rest ih =>
    intro bs vs1 h
    unfold itemsToBytes at h
    cases hfv : f v with
    | mk ob v1h =>
      rw [hfv] at h
      cases ob with
      | none => simp at h
      | some b =>
        cases hrest : itemsToBytes f rest with
        | mk obs vs1t =>
          rw [hrest] at h
          cases obs with
          | none => simp at h
          | some bs2 =>
            simp only [Prod.mk.injEq, Option.some.injEq] at h
            obtain ⟨hb, hv⟩ := h
            have h1 : v1h = v := hf v (by simp) b v1h hfv
            have h2 : vs1t = rest := ih (fun w hw => hf w (by simp [hw])) bs2 vs1t hrest
            rw [← hv, h1, h2]

theorem serializeItems_pure (item : FieldKind) (mode : ArrayMode) (count : Nat)
    (vs : List Value) (ob : Option Bytes) (stored : List Value) (b : Bytes)
    (ih : ∀ (dflt v : Value) (bs : Bytes) (v1 : Value),
      FieldKind.fieldToBytes item dflt v = (some bs, v1) →
      noShort item v = true → v1 = v)
    (hit : FieldKind.serializeItems item mode count vs = (ob, stored))
    (hob : ob = some b)
    (hns : noShort (.array item mode count) (.list vs) = true) :
    stored = vs := by
  cases mode with
  | fixedM =>
    simp only [noShort, Bool.and_eq_true, decide_eq_true_eq, List.all_eq_true] at hns
    obtain ⟨hlen, hall⟩ := hns
    unfold FieldKind.serializeItems at hit
    rw [if_neg (by omega)] at hit
    cases hpo : primOf item with
    | some pe =>
      rw [hpo] at hit
      have hsnd : vs = stored := congrArg Prod.snd hit
      exact hsnd.symm
    | none =>
      rw [hpo] at hit
      have hfst : (itemsToBytes (fun w => FieldKind.fieldToBytes item .none w)
          (vs.take count)).1 = ob := congrArg Prod.fst hit
      have hsnd : (itemsToBytes (fun w => FieldKind.fieldToBytes item .none w)
          (vs.take count)).2 ++ vs.drop count = stored := congrArg Prod.snd hit
      cases hib : itemsToBytes (fun w => FieldKind.fieldToBytes item .none w)
          (vs.take count) with
      | mk obu used1 =>
        rw [hib] at hfst hsnd
        have hfst1 : obu = some b := by rw [← hob]; exact hfst
        have hsnd1 : used1 ++ List.drop count vs = stored := hsnd
        rw [hfst1] at hib
        have h1 : used1 = vs.take count :=
          itemsToBytes_pure _ _
            (fun w hw b2 w1 hfw => ih .none w b2 w1 hfw (hall w hw))
            b used1 hib
        rw [← hsnd1, h1, List.take_append_drop]
  | dynamicM =>
    simp only [noShort, List.all_eq_true] at hns
    unfold FieldKind.serializeItems at hit
    have hfst : (itemsToBytes (fun w => FieldKind.fieldToBytes item .none w) vs).1 = ob :=
      congrArg Prod.fst hit
    have hsnd : (itemsToBytes (fun w => FieldKind.fieldToBytes item .none w) vs).2 = stored :=
      congrArg Prod.snd hit
    cases hib : itemsToBytes (fun w => FieldKind.fieldToBytes item .none w) vs with
    | mk obu used1 =>
      rw [hib] at hfst hsnd
      have hfst1 : obu = some b := by rw [← hob]; exact hfst
      have hsnd1 : used1 = stored := hsnd
      rw [hfst1] at hib
      have h1 : used1 = vs :=
        itemsToBytes_pure _ _
          (fun w hw b2 w1 hfw => ih .none w b2 w1 hfw (hns w hw))
          b used1 hib
      rw [← hsnd1, h1]

theorem fieldToBytes_pure (k : FieldKind) :
    ∀ (dflt v : Value) (bs : Bytes) (v1 : Value),
      FieldKind.fieldToBytes k dflt v = (some bs, v1) →
      noShort k v = true → v1 = v := by
  induction k with
  | array item mode count ih =>
    intro dflt v bs v1 h hns
    unfold FieldKind.fieldToBytes at h
    cases v with
    | list vs =>
      have hfst : (FieldKind.serializeItems item mode count vs).1 = some bs :=
        congrArg Prod.fst h
      have hsnd : Value.list (FieldKind.serializeItems item mode count vs).2 = v1 :=
        congrArg Prod.snd h
      rw [← hsnd]
      have hst : (FieldKind.serializeItems item mode count vs).2 = vs :=
        serializeItems_pure item mode count vs _ _ bs ih
          (by rfl) hfst hns
      rw [hst]
    | none => exact (congrArg Prod.snd h).symm
    | int i => exact (congrArg Prod.snd h).symm
    | bool b2 => exact (congrArg Prod.snd h).symm
    | rat q => exact (congrArg Prod.snd h).symm
    | str s => exact (congrArg Prod.snd h).symm
    | dict es => exact (congrArg Prod.snd h).symm
  | prim p e =>
    intro dflt v bs v1 h hns
    unfold FieldKind.fieldToBytes at h
    exact (congrArg Prod.snd h).symm
  | enum st e ms =>
    intro dflt v bs v1 h hns
    unfold FieldKind.fieldToBytes at h
    exact (congrArg Prod.snd h).symm
  | fixedPoint a b c d =>
    intro dflt v bs v1 h hns
    unfold FieldKind.fieldToBytes at h
    exact (congrArg Prod.snd h).symm
  | strFixed l =>
    intro dflt v bs v1 h hns
    unfold FieldKind.fieldToBytes at h
    exact (congrArg Prod.snd h).symm
  | strDynamic =>
    intro dflt v bs v1 h hns
    unfold FieldKind.fieldToBytes at h
    exact (congrArg Prod.snd h).symm
  | bitfield bits backing e bo =>
    intro dflt v bs v1 h hns
    unfold FieldKind.fieldToBytes at h
    exact (congrArg Prod.snd h).symm

theorem setValue_lookup (inst : List (String × Value)) (n : String) :
    setValue inst n (lookupValue inst n) = inst := by
  induction inst with
  | nil => rfl
  | cons p rest ih =>
    obtain ⟨m, w⟩ := p
    by_cases h : m = n
    · subst h
      simp [setValue, lookupValue, List.lookup]
    · have hmn : (n == m) = false := by
        simp [beq_iff_eq]
        exact fun hn => h hn.symm
      simp only [lookupValue, List.lookup, hmn] at ih ⊢
      simp only [setValue, if_neg h]
      rw [ih]

theorem complex_not_mem_flushRun (f : FieldSpec) (run : List FieldSpec) :
    Step.complex f ∉ flushRun run := by
  unfold flushRun
  split
  · simp
  · simp

theorem complex_mem_compileAux (f : FieldSpec) :
    ∀ (fs : List FieldSpec) (run : List FieldSpec) (cur : Option Endian),
      Step.complex f ∈ compileAux run cur fs → f ∈ fs := by
  intro fs
  induction fs with
  | nil =>
    intro run cur h
    exact absurd h (complex_not_mem_flushRun f run)
  | cons g gs ih =>
    intro run cur h
    unfold compileAux at h
    by_cases hc : coalescable g = true
    · rw [if_pos hc] at h
      dsimp only at h
      by_cases hcur : cur ≠ Option.none ∧ some (endianOf g) ≠ cur
      · rw [if_pos hcur] at h
        rcases List.mem_append.1 h with hl | hr
        · exact absurd hl (complex_not_mem_flushRun f run)
        · exact List.mem_cons_of_mem g (ih _ _ hr)
      · rw [if_neg hcur] at h
        exact List.mem_cons_of_mem g (ih _ _ h)
    · rw [if_neg hc] at h
      rcases List.mem_append.1 h with hl | hr
      · exact absurd hl (complex_not_mem_flushRun f run)
      · rcases List.mem_cons.1 hr with he | hm
        · rw [Step.complex.injEq] at he
          exact he ▸ List.mem_cons_self g gs
        · exact List.mem_cons_of_mem g (ih _ _ hm)

theorem pass1_pure (now : Int) :
    ∀ (steps : List Step) (inst : List (String × Value)) (offset : Nat)
      (r : Bytes × List (String × Nat × Nat) ×
        List (FieldSpec × Nat) × List (FieldSpec × Nat) × List (String × Value)),
      pass1 now steps inst offset = some r →
      (∀ f, Step.complex f ∈ steps →
        noShort f.kind (lookupValue inst f.name) = true) →
      r.2.2.2.2 = inst := by
  intro steps
  induction steps with
  | nil =>
    intro inst offset r h _
    simp only [pass1, Option.some.injEq] at h
    rw [← h]
  | cons step rest ih =>
    intro inst offset r h hns
    cases step with
    | structRun run =>
      unfold pass1 at h
      cases hx : encodeRun now inst run offset with
      | none => rw [hx] at h; exact Option.noConfusion h
      | some x =>
        obtain ⟨b, info, lps, cps⟩ := x
        rw [hx] at h
        replace h : Option.bind (pass1 now rest inst (offset + List.length b))
            (fun y => some (b ++ y.1, info ++ y.2.1, lps ++ y.2.2.1,
              cps ++ y.2.2.2.1, y.2.2.2.2)) = some r := h
        cases hy : pass1 now rest inst (offset + List.length b) with
        | none => rw [hy] at h; exact Option.noConfusion h
        | some y =>
          obtain ⟨bs2, info2, lps2, cps2, inst2⟩ := y
          rw [hy] at h
          have hr : (b ++ bs2, info ++ info2, lps ++ lps2, cps ++ cps2, inst2) = r :=
            Option.some.inj h
          have h2 : inst2 = inst :=
            ih inst (offset + List.length b) (bs2, info2, lps2, cps2, inst2) hy
              (fun g hg => hns g (List.mem_cons_of_mem _ hg))
          rw [← hr]
          exact h2
    | complex f =>
      have hnf : noShort f.kind (lookupValue inst f.name) = true :=
        hns f (List.mem_cons_self _ _)
      unfold pass1 at h
      cases hft : FieldKind.fieldToBytes f.kind f.default (lookupValue inst f.name) with
      | mk ob v1 =>
        rw [hft] at h
        cases ob with
        | none => exact Option.noConfusion h
        | some chunk =>
          replace h : Option.bind
              (pass1 now rest (setValue inst f.name v1) (offset + List.length chunk))
              (fun y => some (chunk ++ y.1,
                (f.name, offset, List.length chunk) :: y.2.1,
                y.2.2.1, y.2.2.2.1, y.2.2.2.2)) = some r := h
          have hv1 : v1 = lookupValue inst f.name :=
            fieldToBytes_pure f.kind f.default _ chunk v1 hft hnf
          have hsv : setValue inst f.name v1 = inst := by
            rw [hv1]; exact setValue_lookup inst f.name
          rw [hsv] at h
          cases hy : pass1 now rest inst (offset + List.length chunk) with
          | none => rw [hy] at h; exact Option.noConfusion h
          | some y =>
            obtain ⟨bs2, info2, lps2, cps2, inst2⟩ := y
            rw [hy] at h
            have hr : (chunk ++ bs2, (f.name, offset, List.length chunk) :: info2,
                lps2, cps2, inst2) = r := Option.some.inj h
            have h2 : inst2 = inst :=
              ih inst (offset + List.length chunk) (bs2, info2, lps2, cps2, inst2) hy
                (fun g hg => hns g (List.mem_cons_of_mem _ hg))
            rw [← hr]
            exact h2

/-- C10: serializing a message leaves the instance values unchanged,
provided no Fixed-mode array value is shorter than its declared count
(`noShort`); the unrestricted claim fails, see the padding counterexample. -/
theorem C10_serialize_pure (schema : List FieldSpec)
    (inst : List (String × Value)) (now : Int) (bs : Bytes)
    (inst1 : List (String × Value))
    (h : msgSerialize schema inst now = some (bs, inst1))
    (hns : ∀ f ∈ schema, noShort f.kind (lookupValue inst f.name) = true) :
    inst1 = inst := by
  unfold msgSerialize at h
  cases hp : pass1 now (compilePlan schema) inst 0 with
  | none => rw [hp] at h; exact Option.noConfusion h
  | some x =>
    obtain ⟨buf, info, lps, cps, instp⟩ := x
    rw [hp] at h
    replace h : Option.bind (applyLengths info lps buf)
        (fun b1 => Option.bind (applyChecksums info cps b1)
          (fun b2 => some (b2, instp))) = some (bs, inst1) := h
    cases hl : applyLengths info lps buf with
    | none => rw [hl] at h; exact Option.noConfusion h
    | some buf1 =>
      rw [hl] at h
      replace h : Option.bind (applyChecksums info cps buf1)
          (fun b2 => some (b2, instp)) = some (bs, inst1) := h
      cases hc : applyChecksums info cps buf1 with
      | none => rw [hc] at h; exact Option.noConfusion h
      | some buf2 =>
        rw [hc] at h
        have hr : ((buf2, instp) : Bytes × List (String × Value)) = (bs, inst1) :=
          Option.some.inj h
        have h2 : instp = inst :=
          pass1_pure now (compilePlan schema) inst 0 (buf, info, lps, cps, instp) hp
            (fun f hf => hns f (complex_mem_compileAux f schema [] Option.none hf))
        have h3 : instp = inst1 := congrArg Prod.snd hr
        rw [← h3, h2]

def c10schema : List FieldSpec :=
  [{ name := "arr", kind := .array (.prim (.uintT 1) .little) .fixedM 3,
     default := .none }]

theorem c10_noshort_example :
    noShort (.array (.prim (.uintT 1) .little) .fixedM 3)
      (.list [.int 1, .int 2, .int 3]) = true := by decide

theorem c10_serialize_full :
    msgSerialize c10schema [("arr", .list [.int 1, .int 2, .int 3])] 0 =
      some ([1, 2, 3], [("arr", .list [.int 1, .int 2, .int 3])]) := by
  simp [msgSerialize, compilePlan, compileAux, coalescable, flushRun, pass1,
    FieldKind.fieldToBytes, FieldKind.serializeItems, primOf, packSanitized,
    primPack, packNatE, toLEBytes, lookupValue, List.lookup, setValue,
    applyLengths, applyChecksums, c10schema]

/-- Closed witness for C10 at the schema `arr : u8[3] Fixed` and the
full-length instance value `[1, 2, 3]`. -/
theorem C10_serialize_pure_witness :
    msgSerialize c10schema [("arr", .list [.int 1, .int 2, .int 3])] 0 =
      some ([1, 2, 3], [("arr", .list [.int 1, .int 2, .int 3])]) ∧
    [("arr", Value.list [.int 1, .int 2, .int 3])] =
      [("arr", Value.list [.int 1, .int 2, .int 3])] := by
  constructor
  · simp [msgSerialize, compilePlan, compileAux, coalescable, flushRun, pass1,
      FieldKind.fieldToBytes, FieldKind.serializeItems, primOf, packSanitized,
      primPack, packNatE, toLEBytes, lookupValue, List.lookup, setValue,
      applyLengths, applyChecksums, c10schema]
  · exact C10_serialize_pure c10schema [("arr", .list [.int 1, .int 2, .int 3])]
      0 [1, 2, 3] [("arr", .list [.int 1, .int 2, .int 3])]
      (by simp [msgSerialize, compilePlan, compileAux, coalescable, flushRun,
        pass1, FieldKind.fieldToBytes, FieldKind.serializeItems, primOf,
        packSanitized, primPack, packNatE, toLEBytes, lookupValue, List.lookup,
        setValue, applyLengths, applyChecksums, c10schema])
      (by intro f hf
          simp only [c10schema, List.mem_singleton] at hf
          subst hf
          decide)

/-- A Fixed-mode array value shorter than its count is padded in place:
serializing mutates the stored list, refuting the unrestricted claim. -/
theorem C10_fixed_array_padding_mutates :
    msgSerialize c10schema [("arr", .list [.int 7])] 0 =
      some ([7, 0, 0], [("arr", .list [.int 7, .none, .none])]) ∧
    [("arr", Value.list [.int 7, .none, .none])] ≠
      [("arr", Value.list [.int 7])] := by
  constructor
  · simp [msgSerialize, compilePlan, compileAux, coalescable, flushRun, pass1,
      FieldKind.fieldToBytes, FieldKind.serializeItems, primOf, packSanitized,
      primPack, packNatE, toLEBytes, lookupValue, List.lookup, setValue,
      applyLengths, applyChecksums, c10schema]
  · simp



theorem trunc_div_near (x : Rat) (fb : Nat) :
    |((pyTrunc (x * 2 ^ fb) : Rat)) / 2 ^ fb - x| ≤ ((2 : Rat) ^ fb)⁻¹ := by
  have hs : (0 : Rat) < 2 ^ fb := by positivity
  have h := pyTrunc_near (x * 2 ^ fb)
  have heq : (pyTrunc (x * 2 ^ fb) : Rat) / 2 ^ fb - x =
      ((pyTrunc (x * 2 ^ fb) : Rat) - x * 2 ^ fb) / 2 ^ fb := by
    field_simp
    ring
  rw [heq, abs_div, abs_of_pos hs, div_le_iff₀ hs, inv_mul_cancel₀ (ne_of_gt hs)]
  exact h

theorem pyTrunc_nonneg {y : Rat} (h : 0 ≤ y) : 0 ≤ pyTrunc y := by
  unfold pyTrunc
  rw [if_pos h]
  exact Int.floor_nonneg.mpr h

theorem fpPrim_facts {ib fb enc : Nat} {p : PrimType}
    (h : FieldKind.fpPrim ib fb enc = some p) :
    1 ≤ p.size ∧ FieldKind.fpTotalBits ib fb enc ≤ 8 * p.size ∧
    p = (if enc = 1 then PrimType.intT p.size else PrimType.uintT p.size) := by
  unfold FieldKind.fpPrim at h
  rw [Option.map_eq_some'] at h
  obtain ⟨n, hn, hp⟩ := h
  have hps : p.size = n := by
    rw [← hp]
    split <;> rfl
  subst hps
  split_ifs at hn with h8 h16 h32 h64 <;>
    simp only [Option.some.injEq] at hn <;>
    refine ⟨by omega, by omega, hp.symm⟩

theorem packSanitized_cons_inv (p : PrimType) (e : Endian) (w : Value)
    (ws : List Value) (bs : Bytes) (hw : w ≠ Value.none)
    (h : packSanitized p e (w :: ws) = some bs) :
    ∃ b0 bs2, primPack p e w = some b0 ∧ packSanitized p e ws = some bs2 ∧
      bs = b0 ++ bs2 := by
  cases w
  case none => exact absurd rfl hw
  all_goals (
    replace h : Option.bind (primPack p e _)
        (fun b0 => Option.bind (packSanitized p e ws)
          (fun bs2 => some (b0 ++ bs2))) = some bs := h
    rw [Option.bind_eq_some] at h
    obtain ⟨b0, hb0, h⟩ := h
    rw [Option.bind_eq_some] at h
    obtain ⟨bs2, hws2, h⟩ := h
    exact ⟨b0, bs2, hb0, hws2, (Option.some.inj h).symm⟩)

theorem packSanitized_unpackRun (p : PrimType) (e : Endian) :
    ∀ (vs : List Value) (bs rest : Bytes),
      (∀ w ∈ vs, primDom p w) →
      packSanitized p e vs = some bs →
      unpackRun p e vs.length (bs ++ rest) = vs ∧
        bs.length = vs.length * p.size := by
  intro vs
  induction vs with
  | nil =>
    intro bs rest _ h
    simp only [packSanitized, Option.some.injEq] at h
    subst h
    exact ⟨rfl, by simp⟩
  | cons w ws ih =>
    intro bs rest hdom h
    have hw : primDom p w := hdom w (by simp)
    have hwn : w ≠ Value.none := by
      intro hEq
      rw [hEq] at hw
      exact absurd hw (by simp [primDom])
    obtain ⟨b0, bs2, hb0, hws2, hbs⟩ := packSanitized_cons_inv p e w ws bs hwn h
    obtain ⟨b1, hb1, hlen0, hup0⟩ := primPack_unpack (e := e) hw
    rw [hb0] at hb1
    have hb01 : b0 = b1 := Option.some.inj hb1
    rw [← hb01] at hlen0 hup0
    obtain ⟨hun, hlen⟩ := ih bs2 rest (fun w hw2 => hdom w (by simp [hw2])) hws2
    subst hbs
    constructor
    · simp only [List.length_cons, unpackRun, List.append_assoc]
      rw [List.take_append_of_le_length (by omega), List.take_of_length_le (by omega),
        hup0, List.drop_append_of_le_length (by omega),
        List.drop_of_length_le (by omega), List.nil_append, hun]
    · simp only [List.length_append, List.length_cons, hlen0, hlen]
      ring



theorem fp_rt_linear (ib fb enc : Nat) (e : Endian) (q : Rat) (p : PrimType)
    (bs : Bytes) (hp : FieldKind.fpPrim ib fb enc = some p)
    (henc2 : enc ≠ 2)
    (henc : FieldKind.fpToBytes ib fb enc e q = some bs) :
    FieldKind.fpFromBytes ib fb enc e bs =
      some ((pyTrunc (q * 2 ^ fb) : Rat) / 2 ^ fb) ∧
    bs.length = p.size ∧
    |((pyTrunc (q * 2 ^ fb) : Rat) / 2 ^ fb) - q| ≤ ((2 : Rat) ^ fb)⁻¹ := by
  unfold FieldKind.fpToBytes at henc
  rw [hp] at henc
  simp only [Option.bind_eq_bind, Option.some_bind] at henc
  rw [if_neg henc2] at henc
  have hlen : bs.length = p.size := primPack_length henc
  obtain ⟨hsz, htot, hform⟩ := fpPrim_facts hp
  have hdom : primDom p (.int (pyTrunc (q * 2 ^ fb))) := by
    cases p with
    | uintT n =>
      by_cases hc : 0 ≤ pyTrunc (q * 2 ^ fb) ∧ pyTrunc (q * 2 ^ fb) < 2 ^ (8 * n)
      · exact hc
      · simp only [primPack, if_neg hc] at henc
        exact Option.noConfusion henc
    | intT n =>
      by_cases hc : -(2 ^ (8 * n - 1) : Int) ≤ pyTrunc (q * 2 ^ fb) ∧
          pyTrunc (q * 2 ^ fb) < 2 ^ (8 * n - 1)
      · exact ⟨by simpa [PrimType.size] using hsz, hc.1, hc.2⟩
      · simp only [primPack, if_neg hc] at henc
        exact Option.noConfusion henc
    | boolT =>
      split at hform <;> exact PrimType.noConfusion hform
  obtain ⟨bs1, hbs1, _, hup⟩ := primPack_unpack (e := e) hdom
  rw [henc] at hbs1
  have hbseq : bs1 = bs := (Option.some.inj hbs1).symm
  rw [hbseq] at hup
  refine ⟨?_, hlen, trunc_div_near q fb⟩
  simp only [FieldKind.fpFromBytes, hp, Option.bind_eq_bind, Option.some_bind, hup]
  rw [if_neg henc2]

theorem fp_rt_dirmag (ib fb : Nat) (e : Endian) (q : Rat) (bs : Bytes)
    (hdom : pyTrunc (|q| * 2 ^ fb) < 2 ^ (ib + fb))
    (henc : FieldKind.fpToBytes ib fb 2 e q = some bs) :
    ∃ q1, FieldKind.fpFromBytes ib fb 2 e bs = some q1 ∧
      |q1 - q| ≤ ((2 : Rat) ^ fb)⁻¹ ∧
      ∀ p1, FieldKind.fpPrim ib fb 2 = some p1 → bs.length = p1.size := by
  cases hp : FieldKind.fpPrim ib fb 2 with
  | none =>
    unfold FieldKind.fpToBytes at henc
    rw [hp] at henc
    simp only [Option.bind_eq_bind, Option.none_bind] at henc
    exact Option.noConfusion henc
  | some p =>
    unfold FieldKind.fpToBytes at henc
    rw [hp] at henc
    simp only [Option.bind_eq_bind, Option.some_bind] at henc
    rw [if_true] at henc
    obtain ⟨hsz, htot, hform⟩ := fpPrim_facts hp
    rw [if_neg (by norm_num)] at hform
    have htr0 : 0 ≤ pyTrunc (|q| * 2 ^ fb) :=
      pyTrunc_nonneg (by positivity)
    set m : Nat := ib + fb with hm
    set raw : Nat := (pyTrunc (|q| * 2 ^ fb)).toNat with hraw
    have hrawlt : raw < 2 ^ m := by
      have hc : ((2 ^ m : Nat) : Int) = (2 : Int) ^ m := by
        push_cast
        ring
      rw [hraw]
      omega
    set flag : Nat := (if q < 0 then 1 else 0 : Nat) with hflag
    have hflag1 : flag ≤ 1 := by
      rw [hflag]
      split <;> omega
    have hflag01 : flag = 0 ∨ flag = 1 := by omega
    have hfinal : raw &&& (1 <<< m) - 1 ||| flag <<< m = 2 ^ m * flag + raw := by
      rw [Nat.one_shiftLeft, Nat.and_pow_two_sub_one_of_lt_two_pow hrawlt,
        Nat.shiftLeft_eq, Nat.mul_comm flag (2 ^ m), Nat.lor_comm,
        ← Nat.mul_add_lt_is_or hrawlt]
    rw [hfinal] at henc
    have hfinlt : 2 ^ m * flag + raw < 2 ^ (8 * p.size) := by
      have h2 : (2 : Nat) ^ (m + 1) ≤ 2 ^ (8 * p.size) := by
        apply Nat.pow_le_pow_right (by norm_num)
        have htot1 : ib + fb + 1 ≤ 8 * p.size := by
          simpa [FieldKind.fpTotalBits] using htot
        omega
      rw [pow_succ] at h2
      rcases hflag01 with hf | hf <;> rw [hf] <;> omega
    have hpdom : primDom p (.int (2 ^ m * flag + raw : Nat)) := by
      rw [hform]
      simp only [primDom]
      refine ⟨Int.ofNat_nonneg _, ?_⟩
      exact_mod_cast hfinlt
    obtain ⟨bs1, hbs1, _, hup⟩ := primPack_unpack (e := e) hpdom
    rw [henc] at hbs1
    have hbseq : bs1 = bs := (Option.some.inj hbs1).symm
    rw [hbseq] at hup
    have hlen : bs.length = p.size := primPack_length henc
    have hshift : (2 ^ m * flag + raw) >>> m = flag := by
      rw [Nat.shiftRight_eq_div_pow, Nat.mul_add_div (Nat.two_pow_pos m),
        Nat.div_eq_of_lt hrawlt]
      omega
    have hfand : flag &&& 1 = flag := by
      rw [hflag]
      split <;> rfl
    have hmod : (2 ^ m * flag + raw) &&& (1 <<< m) - 1 = raw := by
      rw [Nat.one_shiftLeft, Nat.and_pow_two_sub_one_eq_mod, Nat.mul_add_mod,
        Nat.mod_eq_of_lt hrawlt]
    refine ⟨if flag ≠ 0 then -((raw : Rat) / 2 ^ fb) else ((raw : Rat) / 2 ^ fb),
      ?_, ?_, ?_⟩
    · simp only [FieldKind.fpFromBytes, hp, Option.bind_eq_bind, Option.some_bind, hup]
      rw [if_true]
      simp only [Int.toNat_natCast, hshift, hfand, hmod]
    · have hcast : ((raw : Nat) : Rat) = ((pyTrunc (|q| * 2 ^ fb) : Int) : Rat) := by
        rw [hraw]
        exact_mod_cast congrArg (fun z => ((z : Int) : Rat)) (Int.toNat_of_nonneg htr0)
      by_cases hqn : q < 0
      · rw [if_pos (by rw [hflag]; simp [hqn])]
        rw [hcast]
        have habs : |q| = -q := abs_of_neg hqn
        rw [habs]
        have h1 := trunc_div_near (-q) fb
        have heq : -(((pyTrunc (-q * 2 ^ fb) : Int) : Rat) / 2 ^ fb) - q =
            -(((pyTrunc (-q * 2 ^ fb) : Int) : Rat) / 2 ^ fb - (-q)) := by ring
        rw [heq, abs_neg]
        exact h1
      · rw [if_neg (by rw [hflag]; simp [hqn])]
        rw [hcast]
        have habs : |q| = q := abs_of_nonneg (not_lt.mp hqn)
        rw [habs]
        exact trunc_div_near q fb
    · intro p1 hp1
      rw [← Option.some.inj hp1]
      exact hlen


def msbVal : List (Nat × Nat) → Nat
  | [] => 0
  | (w, v) :: rest => v * 2 ^ ((rest.map Prod.fst).sum) + msbVal rest

theorem msbVal_lt (pairs : List (Nat × Nat)) (h : ∀ p ∈ pairs, p.2 < 2 ^ p.1) :
    msbVal pairs < 2 ^ ((pairs.map Prod.fst).sum) := by
  induction pairs with
  | nil => simp [msbVal]
  | cons p rest ih =>
    obtain ⟨w, v⟩ := p
    simp only [msbVal, List.map_cons, List.sum_cons]
    have h1 : v < 2 ^ w := h (w, v) (by simp)
    have h2 : msbVal rest < 2 ^ ((rest.map Prod.fst).sum) :=
      ih (fun p hp => h p (by simp [hp]))
    calc v * 2 ^ ((rest.map Prod.fst).sum) + msbVal rest
        < (v + 1) * 2 ^ ((rest.map Prod.fst).sum) := by
          rw [Nat.add_mul, Nat.one_mul]
          omega
      _ ≤ 2 ^ w * 2 ^ ((rest.map Prod.fst).sum) :=
          Nat.mul_le_mul_right _ (by omega)
      _ = 2 ^ (w + (rest.map Prod.fst).sum) := by rw [pow_add]

theorem bitPackGo_msb_eq (entries : List (String × Nat)) (tw : Nat)
    (bits : List Bit) (vals : List Nat)
    (hl : List.Forall₂
      (fun (b : Bit) (v : Nat) => entries.lookup b.name = some v ∧ v < 2 ^ b.width)
      bits vals) :
    ∀ (cur P : Nat), cur + (bits.map Bit.width).sum = tw →
      bitPackGo entries .msb tw bits cur (P * 2 ^ ((bits.map Bit.width).sum)) =
        P * 2 ^ ((bits.map Bit.width).sum) + msbVal (bitPairs bits vals) := by
  induction hl with
  | nil => simp [bitPackGo, msbVal, bitPairs]
  | cons hbv hrest ih =>
    rename_i b v bits1 vals1
    intro cur P hcur
    obtain ⟨hlook, hv⟩ := hbv
    simp only [List.map_cons, List.sum_cons] at hcur ⊢
    simp only [bitPackGo, hlook, Option.getD_some, Nat.one_shiftLeft, bitPairs,
      msbVal]
    rw [Nat.and_pow_two_sub_one_of_lt_two_pow hv, Nat.shiftLeft_eq]
    have hS1 : tw - cur - b.width = (bits1.map Bit.width).sum := by omega
    rw [hS1]
    have hlow : v * 2 ^ ((bits1.map Bit.width).sum) <
        2 ^ (b.width + (bits1.map Bit.width).sum) := by
      rw [pow_add]
      exact (Nat.mul_lt_mul_right (Nat.two_pow_pos _)).mpr hv
    have hor : P * 2 ^ (b.width + (bits1.map Bit.width).sum) |||
        v * 2 ^ ((bits1.map Bit.width).sum) =
        P * 2 ^ (b.width + (bits1.map Bit.width).sum) +
          v * 2 ^ ((bits1.map Bit.width).sum) := by
      rw [Nat.mul_comm P (2 ^ (b.width + (bits1.map Bit.width).sum)),
        ← Nat.mul_add_lt_is_or hlow]
    rw [hor]
    have hre : P * 2 ^ (b.width + (bits1.map Bit.width).sum) +
        v * 2 ^ ((bits1.map Bit.width).sum) =
        (P * 2 ^ b.width + v) * 2 ^ ((bits1.map Bit.width).sum) := by
      rw [pow_add]
      ring
    rw [hre, ih (cur + b.width) (P * 2 ^ b.width + v) (by omega),
      bitPairs_widths bits1 vals1 hrest.length_eq.symm, pow_add]
    ring

theorem bitUnpackGo_msb_eq (tw raw : Nat) (bits : List Bit) (vals : List Nat)
    (hv : List.Forall₂ (fun (b : Bit) (v : Nat) => v < 2 ^ b.width) bits vals) :
    ∀ (cur H : Nat), cur + (bits.map Bit.width).sum = tw →
      raw = H * 2 ^ ((bits.map Bit.width).sum) + msbVal (bitPairs bits vals) →
      bitUnpackGo .msb tw raw bits cur = bitEntries bits vals := by
  induction hv with
  | nil => simp [bitUnpackGo, bitEntries]
  | cons hbv hrest ih =>
    rename_i b v bits1 vals1
    intro cur H hcur hraw
    simp only [List.map_cons, List.sum_cons] at hcur hraw
    simp only [bitPairs, msbVal] at hraw
    rw [bitPairs_widths bits1 vals1 hrest.length_eq.symm] at hraw
    simp only [bitUnpackGo, Nat.one_shiftLeft, bitEntries]
    have hS1 : tw - cur - b.width = (bits1.map Bit.width).sum := by omega
    rw [hS1]
    have hMlt : msbVal (bitPairs bits1 vals1) < 2 ^ ((bits1.map Bit.width).sum) := by
      have := msbVal_lt (bitPairs bits1 vals1) (bitPairs_mem_lt bits1 vals1 hrest)
      rwa [bitPairs_widths bits1 vals1 hrest.length_eq.symm] at this
    have hre : raw = (H * 2 ^ b.width + v) * 2 ^ ((bits1.map Bit.width).sum) +
        msbVal (bitPairs bits1 vals1) := by
      rw [hraw, pow_add]
      ring
    have hdiv : raw >>> ((bits1.map Bit.width).sum) = H * 2 ^ b.width + v := by
      rw [Nat.shiftRight_eq_div_pow, hre, Nat.mul_comm (H * 2 ^ b.width + v),
        Nat.mul_add_div (Nat.two_pow_pos _), Nat.div_eq_of_lt hMlt]
      omega
    have h1 : raw >>> ((bits1.map Bit.width).sum) &&& 2 ^ b.width - 1 = v := by
      rw [hdiv, Nat.and_pow_two_sub_one_eq_mod, Nat.mul_comm H (2 ^ b.width),
        Nat.mul_add_mod, Nat.mod_eq_of_lt hbv]
    rw [h1, ih (cur + b.width) (H * 2 ^ b.width + v) (by omega) hre]

theorem bitfield_rt (bits : List Bit) (backing : Nat) (e : Endian)
    (bo : BitOrder) (entries : List (String × Nat)) (bs : Bytes)
    (hnd : (bits.map Bit.name).Nodup)
    (hsum : (bits.map Bit.width).sum ≤ 8 * backing)
    (hent : entriesOk bits entries = true)
    (henc : bitFieldToBytes bits backing e bo (.dict entries) = some bs) :
    bs.length = backing ∧
    bitFieldFromBytes bits backing e bo bs = some (.dict entries) := by
  obtain ⟨hshape, hlen, hv⟩ := entriesOk_shape bits entries hent
  set vals : List Nat := entries.map Prod.snd with hvals
  have hcomb : List.Forall₂
      (fun (b : Bit) (v : Nat) =>
        (bitEntries bits vals).lookup b.name = some v ∧ v < 2 ^ b.width)
      bits vals := by
    have h1 := bitEntries_lookup bits vals hlen hnd
    rw [List.forall₂_iff_get] at h1 hv ⊢
    exact ⟨h1.1, fun i hi1 hi2 => ⟨h1.2 i hi1 hi2, hv.2 i hi1 hi2⟩⟩
  have hwidths : ((bitPairs bits vals).map Prod.fst).sum = (bits.map Bit.width).sum :=
    bitPairs_widths bits vals hlen
  set packed : Nat := bitPackDict bits bo (bitEntries bits vals) with hpacked
  have hlsb : bo = .lsb → packed = lsbVal (bitPairs bits vals) := by
    intro hb
    subst hb
    rw [hpacked]
    unfold bitPackDict
    rw [bitPackGo_lsb_eq (bitEntries bits vals) _ bits vals 0 0 hcomb (by norm_num)]
    simp
  have hmsb : bo = .msb → packed = msbVal (bitPairs bits vals) := by
    intro hb
    subst hb
    rw [hpacked]
    unfold bitPackDict
    have := bitPackGo_msb_eq (bitEntries bits vals) ((bits.map Bit.width).sum)
      bits vals hcomb 0 0 (by omega)
    simpa using this
  have hplt : packed < 2 ^ ((bits.map Bit.width).sum) := by
    cases bo with
    | lsb =>
      rw [hlsb rfl]
      have := lsbVal_lt (bitPairs bits vals) (bitPairs_mem_lt bits vals hv)
      rwa [hwidths] at this
    | msb =>
      rw [hmsb rfl]
      have := msbVal_lt (bitPairs bits vals) (bitPairs_mem_lt bits vals hv)
      rwa [hwidths] at this
  have hlt : packed < 2 ^ (8 * backing) :=
    hplt.trans_le (Nat.pow_le_pow_right (by norm_num) hsum)
  have hdom : primDom (.uintT backing) (.int (packed : Nat)) := by
    refine ⟨Int.ofNat_nonneg _, ?_⟩
    exact_mod_cast hlt
  have hencp : primPack (.uintT backing) e (.int (packed : Nat)) = some bs := by
    unfold bitFieldToBytes at henc
    rw [hshape] at henc
    simpa [← hpacked] using henc
  obtain ⟨bs1, hbs1, hlen1, hup⟩ := primPack_unpack (e := e) hdom
  rw [hencp] at hbs1
  have hbseq : bs1 = bs := (Option.some.inj hbs1).symm
  rw [hbseq] at hup hlen1
  refine ⟨by simpa [PrimType.size] using hlen1, ?_⟩
  unfold bitFieldFromBytes
  rw [hup]
  simp only [Int.toNat_natCast]
  unfold bitUnpackDict
  rw [hshape]
  cases bo with
  | lsb =>
    rw [bitUnpackGo_lsb_eq _ _ bits vals 0 0 hv
      (by simp [Nat.shiftRight_zero, hlsb rfl])]
  | msb =>
    rw [bitUnpackGo_msb_eq _ _ bits vals hv 0 0 (by omega)
      (by simp [hmsb rfl])]


theorem primOf_eq_some {item : FieldKind} {p : PrimType} {e : Endian}
    (h : primOf item = some (p, e)) : item = .prim p e := by
  cases item <;> simp [primOf] at h
  rw [h.1, h.2]

theorem fpToBytes_some_prim {ib fb enc : Nat} {e : Endian} {q : Rat} {bs : Bytes}
    (h : FieldKind.fpToBytes ib fb enc e q = some bs) :
    ∃ p, FieldKind.fpPrim ib fb enc = some p := by
  cases hp : FieldKind.fpPrim ib fb enc with
  | none =>
    unfold FieldKind.fpToBytes at h
    rw [hp] at h
    simp only [Option.bind_eq_bind, Option.none_bind] at h
    exact Option.noConfusion h
  | some p => exact ⟨p, rfl⟩

theorem itemsToBytes_cons_inv (f : Value → Option Bytes × Value) (v : Value)
    (vs : List Value) (bs : Bytes) (vs1 : List Value)
    (h : itemsToBytes f (v :: vs) = (some bs, vs1)) :
    ∃ b v1 bs2 vs2, f v = (some b, v1) ∧ itemsToBytes f vs = (some bs2, vs2) ∧
      bs = b ++ bs2 ∧ vs1 = v1 :: vs2 := by
  unfold itemsToBytes at h
  cases hfv : f v with
  | mk ob v1h =>
    rw [hfv] at h
    cases ob with
    | none => simp at h
    | some b =>
      cases hrest : itemsToBytes f vs with
      | mk obs vs2h =>
        rw [hrest] at h
        cases obs with
        | none => simp at h
        | some bs2 =>
          simp only [Prod.mk.injEq, Option.some.injEq] at h
          exact ⟨b, v1h, bs2, vs2h, rfl, rfl, h.1.symm, h.2.symm⟩

theorem items_rt (item : FieldKind)
    (ih : ∀ (dflt v : Value) (bs : Bytes) (v1 : Value) (rest : Bytes),
      kindOk item = true → domOk item v = true →
      FieldKind.fieldToBytes item dflt v = (some bs, v1) →
      ∃ w, FieldKind.fieldFromBytes item (bs ++ rest) = some (w, bs.length) ∧
        rtRel item v w ∧
        ∀ sz, FieldKind.struct_format_size item = some sz → bs.length = sz)
    (hki : kindOk item = true) :
    ∀ (vs : List Value) (bs : Bytes) (vs1 : List Value) (rest : Bytes),
      (∀ w ∈ vs, domOk item w = true) →
      itemsToBytes (fun w => FieldKind.fieldToBytes item .none w) vs =
        (some bs, vs1) →
      ∃ ws, fixLoop (fun d => FieldKind.fieldFromBytes item d) vs.length
          (bs ++ rest) = some (ws, bs.length) ∧
        List.Forall₂ (rtRel item) vs ws := by
  intro vs
  induction vs with
  | nil =>
    intro bs vs1 rest _ h
    simp only [itemsToBytes, Prod.mk.injEq, Option.some.injEq] at h
    rw [← h.1]
    exact ⟨[], by simp [fixLoop], .nil⟩
  | cons v vs ihv =>
    intro bs vs1 rest hdom h
    obtain ⟨b, v1, bs2, vs2, hfv, hrest, hbs, hvs1⟩ :=
      itemsToBytes_cons_inv _ v vs bs vs1 h
    obtain ⟨w, hw, hrel, _⟩ :=
      ih .none v b v1 (bs2 ++ rest) hki (hdom v (by simp)) hfv
    obtain ⟨ws, hws, hrels⟩ :=
      ihv bs2 vs2 rest (fun u hu => hdom u (by simp [hu])) hrest
    refine ⟨w :: ws, ?_, List.Forall₂.cons hrel hrels⟩
    subst hbs
    simp only [List.length_cons, fixLoop, List.append_assoc]
    rw [hw]
    simp only [Option.bind_eq_bind, Option.some_bind]
    rw [List.drop_append_of_le_length (le_refl _), List.drop_length,
      List.nil_append, hws]
    simp [List.length_append]


theorem sanitizeMatch_eq (p : PrimType) (e : Endian) (dflt v : Value)
    (hv : v ≠ Value.none) :
    (match substDefault dflt v with
      | Value.none => primPack p e (.int 0)
      | w => primPack p e w) = primPack p e v := by
  cases v
  case none => exact absurd rfl hv
  all_goals rfl

theorem field_rt (k : FieldKind) :
    ∀ (dflt v : Value) (bs : Bytes) (v1 : Value) (rest : Bytes),
      kindOk k = true → domOk k v = true →
      FieldKind.fieldToBytes k dflt v = (some bs, v1) →
      ∃ w, FieldKind.fieldFromBytes k (bs ++ rest) = some (w, bs.length) ∧
        rtRel k v w ∧
        ∀ sz, FieldKind.struct_format_size k = some sz → bs.length = sz := by
  induction k with
  | prim p e =>
    intro dflt v bs v1 rest hk hd henc
    have hdp : primDom p v := of_decide_eq_true hd
    have hvne : v ≠ Value.none := by
      intro hEq
      rw [hEq] at hdp
      exact absurd hdp (by simp [primDom])
    unfold FieldKind.fieldToBytes at henc
    have hb : (match substDefault dflt v with
        | Value.none => primPack p e (.int 0)
        | w => primPack p e w) = some bs := congrArg Prod.fst henc
    rw [sanitizeMatch_eq p e dflt v hvne] at hb
    obtain ⟨bs1, hbs1, hlen1, hup⟩ := primPack_unpack (e := e) hdp
    rw [hb] at hbs1
    have hbseq : bs1 = bs := (Option.some.inj hbs1).symm
    rw [hbseq] at hup hlen1
    refine ⟨v, ?_, rfl, ?_⟩
    · simp only [FieldKind.fieldFromBytes]
      rw [if_neg (by rw [List.length_append]; omega),
        List.take_append_of_le_length (by omega),
        List.take_of_length_le (by omega), hup, hlen1]
    · intro sz hsz
      simp only [FieldKind.struct_format_size, Option.some.injEq] at hsz
      rw [hlen1, hsz]
  | enum storage e members =>
    intro dflt v bs v1 rest hk hd henc
    cases v with
    | int i =>
      simp only [domOk, Bool.and_eq_true, decide_eq_true_eq] at hd
      obtain ⟨hmem, hdp⟩ := hd
      unfold FieldKind.fieldToBytes at henc
      have hb : (match substDefault dflt (Value.int i) with
          | Value.none => primPack storage e (.int 0)
          | w => primPack storage e w) = some bs := congrArg Prod.fst henc
      rw [sanitizeMatch_eq storage e dflt (Value.int i) (by simp)] at hb
      obtain ⟨bs1, hbs1, hlen1, hup⟩ := primPack_unpack (e := e) hdp
      rw [hb] at hbs1
      have hbseq : bs1 = bs := (Option.some.inj hbs1).symm
      rw [hbseq] at hup hlen1
      refine ⟨.int i, ?_, rfl, ?_⟩
      · simp only [FieldKind.fieldFromBytes]
        rw [if_neg (by rw [List.length_append]; omega),
          List.take_append_of_le_length (by omega),
          List.take_of_length_le (by omega), hup, hlen1]
      · intro sz hsz
        simp only [FieldKind.struct_format_size, Option.some.injEq] at hsz
        rw [hlen1, hsz]
    | none => simp [domOk] at hd
    | bool b => simp [domOk] at hd
    | rat q => simp [domOk] at hd
    | str s2 => simp [domOk] at hd
    | dict es => simp [domOk] at hd
    | list vs => simp [domOk] at hd
  | fixedPoint ib fb enc e =>
    intro dflt v bs v1 rest hk hd henc
    cases v with
    | rat q =>
      unfold FieldKind.fieldToBytes at henc
      have hb : FieldKind.fpToBytes ib fb enc e q = some bs :=
        congrArg Prod.fst henc
      obtain ⟨p, hp⟩ := fpToBytes_some_prim hb
      by_cases henc2 : enc = 2
      · subst henc2
        simp [domOk] at hd
        obtain ⟨q1, hdec, hbound, hlenf⟩ := fp_rt_dirmag ib fb e q bs hd hb
        have hlen : bs.length = p.size := hlenf p hp
        refine ⟨.rat q1, ?_, ⟨q, q1, rfl, rfl, hbound⟩, ?_⟩
        · simp only [FieldKind.fieldFromBytes, hp, Option.bind_eq_bind,
            Option.some_bind]
          rw [if_neg (by rw [List.length_append]; omega),
            List.take_append_of_le_length (by omega),
            List.take_of_length_le (by omega), hdec]
          simp only [Option.some_bind, Option.pure_def]
          rw [hlen]
        · intro sz hsz
          simp only [FieldKind.struct_format_size, hp, Option.map_some',
            Option.some.injEq] at hsz
          rw [hlen, hsz]
      · simp only [domOk, if_neg henc2, hp, decide_eq_true_eq] at hd
        obtain ⟨hdec, hlen, hbound⟩ := fp_rt_linear ib fb enc e q p bs hp henc2 hb
        refine ⟨.rat ((pyTrunc (q * 2 ^ fb) : Rat) / 2 ^ fb), ?_,
          ⟨q, _, rfl, rfl, hbound⟩, ?_⟩
        · simp only [FieldKind.fieldFromBytes, hp, Option.bind_eq_bind,
            Option.some_bind]
          rw [if_neg (by rw [List.length_append]; omega),
            List.take_append_of_le_length (by omega),
            List.take_of_length_le (by omega), hdec]
          simp only [Option.some_bind, Option.pure_def]
          rw [hlen]
        · intro sz hsz
          simp only [FieldKind.struct_format_size, hp, Option.map_some',
            Option.some.injEq] at hsz
          rw [hlen, hsz]
    | none => simp [domOk] at hd
    | bool b => simp [domOk] at hd
    | int i => simp [domOk] at hd
    | str s2 => simp [domOk] at hd
    | dict es => simp [domOk] at hd
    | list vs => simp [domOk] at hd
  | strFixed len =>
    intro dflt v bs v1 rest hk hd henc
    cases v with
    | str s =>
      simp only [domOk, Bool.and_eq_true, decide_eq_true_eq] at hd
      obtain ⟨hslen, hlast⟩ := hd
      unfold FieldKind.fieldToBytes at henc
      have hb : some (s.take len ++ List.replicate (len - s.length) 0) = some bs :=
        congrArg Prod.fst henc
      have hbs : bs = s ++ List.replicate (len - s.length) 0 := by
        rw [← Option.some.inj hb, List.take_of_length_le hslen]
      have hlenb : bs.length = len := by
        rw [hbs]
        simp only [List.length_append, List.length_replicate]
        omega
      refine ⟨.str s, ?_, rfl, ?_⟩
      · simp only [FieldKind.fieldFromBytes]
        rw [if_neg (by rw [List.length_append]; omega),
          List.take_append_of_le_length (by omega),
          List.take_of_length_le (by omega), hlenb, hbs,
          rstripNull_pad s _ hlast]
      · intro sz hsz
        simp only [FieldKind.struct_format_size, Option.some.injEq] at hsz
        rw [hlenb, hsz]
    | none => simp [domOk] at hd
    | bool b => simp [domOk] at hd
    | int i => simp [domOk] at hd
    | rat q => simp [domOk] at hd
    | dict es => simp [domOk] at hd
    | list vs => simp [domOk] at hd
  | strDynamic =>
    intro dflt v bs v1 rest hk hd henc
    cases v with
    | str s =>
      simp only [domOk, decide_eq_true_eq] at hd
      unfold FieldKind.fieldToBytes at henc
      have hb : (if s.length < 2 ^ 32 then
          some (packNatE .little 4 s.length ++ s) else none) = some bs :=
        congrArg Prod.fst henc
      rw [if_pos hd] at hb
      have hbs : bs = packNatE .little 4 s.length ++ s :=
        (Option.some.inj hb).symm
      have hlenb : bs.length = 4 + s.length := by
        rw [hbs]
        simp [List.length_append]
      have h256 : s.length < 256 ^ 4 := by
        have : (256 : Nat) ^ 4 = 2 ^ 32 := by norm_num
        omega
      have htake : (bs ++ rest).take 4 = packNatE .little 4 s.length := by
        rw [hbs, List.append_assoc,
          List.take_append_of_le_length (by simp),
          List.take_of_length_le (by simp)]
      have hfrom : fromLEBytes ((bs ++ rest).take 4) = s.length := by
        rw [htake]
        show fromLEBytes (toLEBytes 4 s.length) = s.length
        exact fromLEBytes_toLEBytes_of_lt h256
      have hdrop : (bs ++ rest).drop 4 = s ++ rest := by
        rw [hbs, List.append_assoc]
        rw [show (4 : Nat) = (packNatE .little 4 s.length).length by simp]
        exact List.drop_left _ _
      refine ⟨.str s, ?_, rfl, ?_⟩
      · simp only [FieldKind.fieldFromBytes]
        rw [if_neg (by rw [List.length_append]; omega)]
        show (if (bs ++ rest).length < 4 + fromLEBytes ((bs ++ rest).take 4)
            then (none : Option (Value × Nat))
            else some (Value.str (((bs ++ rest).drop 4).take
              (fromLEBytes ((bs ++ rest).take 4))),
              4 + fromLEBytes ((bs ++ rest).take 4))) =
          some (Value.str s, bs.length)
        rw [hfrom, hdrop,
          if_neg (by rw [List.length_append]; omega),
          List.take_append_of_le_length (le_refl _), List.take_length, hlenb]
      · intro sz hsz
        exact Option.noConfusion hsz
    | none => simp [domOk] at hd
    | bool b => simp [domOk] at hd
    | int i => simp [domOk] at hd
    | rat q => simp [domOk] at hd
    | dict es => simp [domOk] at hd
    | list vs => simp [domOk] at hd
  | bitfield bits backing e bo =>
    intro dflt v bs v1 rest hk hd henc
    cases v with
    | dict entries =>
      simp only [kindOk, Bool.and_eq_true, decide_eq_true_eq] at hk
      obtain ⟨hnd, hsum⟩ := hk
      have hent : entriesOk bits entries = true := hd
      unfold FieldKind.fieldToBytes at henc
      have hb : bitFieldToBytes bits backing e bo (.dict entries) = some bs :=
        congrArg Prod.fst henc
      obtain ⟨hlenb, hdec⟩ := bitfield_rt bits backing e bo entries bs hnd hsum hent hb
      refine ⟨.dict entries, ?_, rfl, ?_⟩
      · simp only [FieldKind.fieldFromBytes]
        rw [if_neg (by rw [List.length_append]; omega),
          List.take_append_of_le_length (by omega),
          List.take_of_length_le (by omega), hdec, Option.map_some', hlenb]
      · intro sz hsz
        simp only [FieldKind.struct_format_size, Option.some.injEq] at hsz
        rw [hlenb, hsz]
    | none => simp [domOk] at hd
    | bool b => simp [domOk] at hd
    | int i => simp [domOk] at hd
    | rat q => simp [domOk] at hd
    | str s2 => simp [domOk] at hd
    | list vs => simp [domOk] at hd
  | array item mode count ih =>
    intro dflt v bs v1 rest hk hd henc
    cases mode with
    | dynamicM => simp [kindOk] at hk
    | fixedM =>
      have hki : kindOk item = true := by simpa [kindOk] using hk
      cases v with
      | list vs =>
        simp only [domOk, Bool.and_eq_true, decide_eq_true_eq,
          List.all_eq_true] at hd
        obtain ⟨hcnt, hall⟩ := hd
        unfold FieldKind.fieldToBytes at henc
        have hfst : (FieldKind.serializeItems item .fixedM count vs).1 = some bs :=
          congrArg Prod.fst henc
        unfold FieldKind.serializeItems at hfst
        rw [if_neg (by omega)] at hfst
        have htk : List.take count vs = vs := by rw [← hcnt, List.take_length]
        cases hpo : primOf item with
        | some pe =>
          obtain ⟨p, e⟩ := pe
          have hitem : item = .prim p e := primOf_eq_some hpo
          rw [hpo] at hfst
          replace hfst : packSanitized p e (List.take count vs) = some bs := hfst
          rw [htk] at hfst
          have hpk : packSanitized p e vs = some bs := hfst
          have hdomvs : ∀ w ∈ vs, primDom p w := by
            intro w hw
            have := hall w hw
            rw [hitem] at this
            exact of_decide_eq_true this
          obtain ⟨hun, hlenb⟩ := packSanitized_unpackRun p e vs bs rest hdomvs hpk
          refine ⟨.list vs, ?_, ⟨vs, vs, rfl, rfl, ?_⟩, ?_⟩
          · simp only [FieldKind.fieldFromBytes, hpo]
            rw [if_neg (by rw [List.length_append, hlenb, hcnt]; omega),
              ← hcnt, hun, hlenb]
          · rw [List.forall₂_same]
            intro w hw
            rw [hitem]
            exact rfl
          · intro sz hsz
            simp only [FieldKind.struct_format_size, hpo, Option.some.injEq] at hsz
            rw [hlenb, ← hsz, hcnt]
        | none =>
          rw [hpo] at hfst
          replace hfst : (itemsToBytes
              (fun w => FieldKind.fieldToBytes item .none w)
              (List.take count vs)).1 = some bs := hfst
          rw [htk] at hfst
          cases hib : itemsToBytes (fun w => FieldKind.fieldToBytes item .none w) vs with
          | mk ob used1 =>
            rw [hib] at hfst
            have hob : ob = some bs := hfst
            rw [hob] at hib
            obtain ⟨ws, hfix, hrels⟩ :=
              items_rt item ih hki vs bs used1 rest hall hib
            refine ⟨.list ws, ?_, ⟨vs, ws, rfl, rfl, hrels⟩, ?_⟩
            · simp only [FieldKind.fieldFromBytes, hpo]
              rw [← hcnt, hfix, Option.map_some']
            · intro sz hsz
              simp only [FieldKind.struct_format_size, hpo] at hsz
              exact Option.noConfusion hsz
      | none => simp [domOk] at hd
      | bool b => simp [domOk] at hd
      | int i => simp [domOk] at hd
      | rat q => simp [domOk] at hd
      | str s2 => simp [domOk] at hd
      | dict es => simp [domOk] at hd


/-- The schema fields of a packing plan, in plan order. -/
def stepsFields : List Step → List FieldSpec
  | [] => []
  | .structRun run :: s => run ++ stepsFields s
  | .complex f :: s => f :: stepsFields s

theorem stepsFields_flushRun (run : List FieldSpec) (s : List Step) :
    stepsFields (flushRun run ++ s) = run ++ stepsFields s := by
  unfold flushRun
  split
  · rename_i hr
    rw [List.isEmpty_iff] at hr
    simp [hr]
  · simp [stepsFields]

theorem stepsFields_compileAux :
    ∀ (fs run : List FieldSpec) (cur : Option Endian),
      stepsFields (compileAux run cur fs) = run ++ fs := by
  intro fs
  induction fs with
  | nil =>
    intro run cur
    unfold compileAux
    have := stepsFields_flushRun run []
    simpa [stepsFields] using this
  | cons f fs ih =>
    intro run cur
    unfold compileAux
    by_cases hc : coalescable f = true
    · rw [if_pos hc]
      dsimp only
      by_cases hcur : cur ≠ Option.none ∧ some (endianOf f) ≠ cur
      · rw [if_pos hcur, stepsFields_flushRun, ih [f] (some (endianOf f))]
        simp
      · rw [if_neg hcur, ih (run ++ [f]) (some (endianOf f))]
        simp
    · rw [if_neg hc, stepsFields_flushRun]
      simp only [stepsFields, ih [] Option.none]
      simp

theorem runPrimOf_eq_some {k : FieldKind} {p : PrimType} {e : Endian}
    (h : runPrimOf k = some (p, e)) :
    k = .prim p e ∨ ∃ members, k = .enum p e members := by
  cases k with
  | prim p1 e1 =>
    simp only [runPrimOf, Option.some.injEq, Prod.mk.injEq] at h
    left
    rw [h.1, h.2]
  | enum storage e1 members =>
    simp only [runPrimOf, Option.some.injEq, Prod.mk.injEq] at h
    right
    exact ⟨members, by rw [h.1, h.2]⟩
  | fixedPoint a b c d => simp [runPrimOf] at h
  | strFixed l => simp [runPrimOf] at h
  | strDynamic => simp [runPrimOf] at h
  | bitfield a b c d => simp [runPrimOf] at h
  | array a b c => simp [runPrimOf] at h

theorem domOk_ne_none {k : FieldKind} {v : Value} (h : domOk k v = true) :
    v ≠ Value.none := by
  intro hEq
  subst hEq
  cases k with
  | prim p e => simp [domOk, primDom] at h
  | enum a b c => simp [domOk] at h
  | fixedPoint a b c d => simp [domOk] at h
  | strFixed l => simp [domOk] at h
  | strDynamic => simp [domOk] at h
  | bitfield a b c d => simp [domOk] at h
  | array item mode count => cases mode <;> simp [domOk] at h

theorem runFieldValue_id (now : Int) (f : FieldSpec) (v : Value)
    (h1 : f.is_checksum = false) (h2 : f.is_length = false)
    (h3 : f.is_timestamp = false) (hv : v ≠ Value.none) :
    runFieldValue now f v = v := by
  cases v
  case none => exact absurd rfl hv
  all_goals (unfold runFieldValue; rw [h1, h2, h3]; simp)

theorem encodeRun_rt (now : Int) (inst : List (String × Value)) :
    ∀ (run : List FieldSpec) (offset : Nat) (b : Bytes)
      (info : List (String × Nat × Nat)) (lps cps : List (FieldSpec × Nat)),
      (∀ f ∈ run, f.is_checksum = false ∧ f.is_length = false ∧
        f.is_timestamp = false) →
      (∀ f ∈ run, domOk f.kind (lookupValue inst f.name) = true) →
      encodeRun now inst run offset = some (b, info, lps, cps) →
      lps = [] ∧ cps = [] ∧ b.length = runSize run ∧
      (∀ f ∈ run, ∃ pe, runPrimOf f.kind = some pe) ∧
      decodeRunFields run b =
        some (run.map (fun f => (f.name, lookupValue inst f.name))) := by
  intro run
  induction run with
  | nil =>
    intro offset b info lps cps _ _ h
    replace h : (some ([], [], [], []) :
        Option (Bytes × List (String × Nat × Nat) ×
          List (FieldSpec × Nat) × List (FieldSpec × Nat))) =
        some (b, info, lps, cps) := h
    have h4 : (([], [], [], []) : Bytes × List (String × Nat × Nat) ×
        List (FieldSpec × Nat) × List (FieldSpec × Nat)) = (b, info, lps, cps) :=
      Option.some.inj h
    simp only [Prod.mk.injEq] at h4
    obtain ⟨hb, hinfo, hlps, hcps⟩ := h4
    exact ⟨hlps.symm, hcps.symm, by rw [← hb]; rfl, by simp,
      by rw [← hb]; rfl⟩
  | cons f rest ih =>
    intro offset b info lps cps hflags hdoms h
    obtain ⟨hf1, hf2, hf3⟩ := hflags f (by simp)
    have hdomf : domOk f.kind (lookupValue inst f.name) = true :=
      hdoms f (by simp)
    have hvne : lookupValue inst f.name ≠ Value.none := domOk_ne_none hdomf
    unfold encodeRun at h
    cases hpe : runPrimOf f.kind with
    | none =>
      rw [hpe] at h
      exact Option.noConfusion (h :
        (Option.none : Option (Bytes × List (String × Nat × Nat) ×
          List (FieldSpec × Nat) × List (FieldSpec × Nat))) =
        some (b, info, lps, cps))
    | some pe =>
      obtain ⟨p, e⟩ := pe
      rw [hpe] at h
      replace h : Option.bind
          (primPack p e (runFieldValue now f (lookupValue inst f.name)))
          (fun b0 => Option.bind (encodeRun now inst rest (offset + p.size))
            (fun x => some (b0 ++ x.1, (f.name, offset, p.size) :: x.2.1,
              (if ¬ f.is_checksum ∧ f.is_length then (f, offset) :: x.2.2.1
                else x.2.2.1),
              (if f.is_checksum then (f, offset) :: x.2.2.2
                else x.2.2.2)))) = some (b, info, lps, cps) := h
      rw [runFieldValue_id now f _ hf1 hf2 hf3 hvne] at h
      cases hb0 : primPack p e (lookupValue inst f.name) with
      | none =>
        rw [hb0] at h
        exact Option.noConfusion h
      | some b0 =>
        rw [hb0] at h
        cases her : encodeRun now inst rest (offset + p.size) with
        | none =>
          rw [her] at h
          exact Option.noConfusion h
        | some x =>
          obtain ⟨bs1, info1, lps1, cps1⟩ := x
          rw [her] at h
          simp only [Option.some_bind, Option.some.injEq, Prod.mk.injEq,
            hf1, hf2, Bool.false_eq_true, false_and, and_false, if_false,
            not_false_eq_true] at h
          obtain ⟨hbeq, hinfoeq, hlpseq, hcpseq⟩ := h
          obtain ⟨hlps1, hcps1, hlen1, hrp1, hdec1⟩ :=
            ih (offset + p.size) bs1 info1 lps1 cps1
              (fun g hg => hflags g (by simp [hg]))
              (fun g hg => hdoms g (by simp [hg])) her
          have hdomp : primDom p (lookupValue inst f.name) := by
            rcases runPrimOf_eq_some hpe with hkind | ⟨members, hkind⟩
            · rw [hkind] at hdomf
              exact of_decide_eq_true hdomf
            · rw [hkind] at hdomf
              cases hlook : lookupValue inst f.name with
              | int i =>
                rw [hlook] at hdomf
                simp only [domOk, Bool.and_eq_true, decide_eq_true_eq] at hdomf
                exact hdomf.2
              | none => rw [hlook] at hdomf; simp [domOk] at hdomf
              | bool b2 => rw [hlook] at hdomf; simp [domOk] at hdomf
              | rat q => rw [hlook] at hdomf; simp [domOk] at hdomf
              | str s2 => rw [hlook] at hdomf; simp [domOk] at hdomf
              | dict es => rw [hlook] at hdomf; simp [domOk] at hdomf
              | list vs => rw [hlook] at hdomf; simp [domOk] at hdomf
          obtain ⟨b1, hb1, hlenb, hup⟩ := primPack_unpack (e := e) hdomp
          rw [hb0] at hb1
          have hbeq1 : b1 = b0 := (Option.some.inj hb1).symm
          rw [hbeq1] at hlenb hup
          have htake : (b0 ++ bs1).take p.size = b0 := by
            rw [List.take_append_of_le_length (by omega),
              List.take_of_length_le (by omega)]
          have hdrop : (b0 ++ bs1).drop p.size = bs1 := by
            rw [← hlenb]
            exact List.drop_left _ _
          refine ⟨hlpseq.symm.trans hlps1, hcpseq.symm.trans hcps1, ?_, ?_, ?_⟩
          · rw [← hbeq]
            simp only [List.length_append, runSize, List.map_cons, List.sum_cons]
            rw [hlenb]
            have : (rest.map fieldRunSize).sum = runSize rest := rfl
            rw [this, hlen1]
            simp [fieldRunSize, hpe]
          · intro g hg
            rcases List.mem_cons.1 hg with hgf | hgr
            · exact ⟨(p, e), hgf ▸ hpe⟩
            · exact hrp1 g hgr
          · rw [← hbeq]
            rcases runPrimOf_eq_some hpe with hkind | ⟨members, hkind⟩
            · simp only [decodeRunFields, hkind, runPrimOf, Option.bind_eq_bind,
                Option.some_bind, htake, hdrop, hup, hdec1, List.map_cons,
                Option.pure_def]
            · cases hlook : lookupValue inst f.name with
              | int i =>
                have hmem : i ∈ members := by
                  rw [hkind, hlook] at hdomf
                  simp only [domOk, Bool.and_eq_true, decide_eq_true_eq] at hdomf
                  exact hdomf.1
                rw [hlook] at hup
                simp only [decodeRunFields, hkind, runPrimOf, Option.bind_eq_bind,
                  Option.some_bind, htake, hdrop, hup, hdec1, List.map_cons,
                  hlook, Option.pure_def]
                simp [hmem]
              | none => exact absurd hlook hvne
              | bool b2 => rw [hkind, hlook] at hdomf; simp [domOk] at hdomf
              | rat q => rw [hkind, hlook] at hdomf; simp [domOk] at hdomf
              | str s2 => rw [hkind, hlook] at hdomf; simp [domOk] at hdomf
              | dict es => rw [hkind, hlook] at hdomf; simp [domOk] at hdomf
              | list vs => rw [hkind, hlook] at hdomf; simp [domOk] at hdomf


theorem domOk_noShort (k : FieldKind) : ∀ v, domOk k v = true → noShort k v = true := by
  induction k with
  | array item mode count ih =>
    intro v hd
    cases mode with
    | dynamicM => cases v <;> simp [domOk] at hd
    | fixedM =>
      cases v with
      | list vs =>
        simp only [domOk, Bool.and_eq_true, decide_eq_true_eq,
          List.all_eq_true] at hd
        obtain ⟨hcnt, hall⟩ := hd
        simp only [noShort, Bool.and_eq_true, decide_eq_true_eq,
          List.all_eq_true]
        refine ⟨by omega, ?_⟩
        rw [← hcnt, List.take_length]
        exact fun w hw => ih w (hall w hw)
      | none => simp [domOk] at hd
      | bool b => simp [domOk] at hd
      | int i => simp [domOk] at hd
      | rat q => simp [domOk] at hd
      | str s2 => simp [domOk] at hd
      | dict es => simp [domOk] at hd
  | prim p e => intro v _; rfl
  | enum a b c => intro v _; rfl
  | fixedPoint a b c d => intro v _; rfl
  | strFixed l => intro v _; rfl
  | strDynamic => intro v _; rfl
  | bitfield a b c d => intro v _; rfl


theorem rtRel_refl_of_runPrim {k : FieldKind} {pe : PrimType × Endian}
    (h : runPrimOf k = some pe) (v : Value) : rtRel k v v := by
  obtain ⟨p, e⟩ := pe
  rcases runPrimOf_eq_some h with hk | ⟨members, hk⟩ <;> subst hk <;>
    (show v = v; rfl)

theorem pass1_decode (now : Int) (inst : List (String × Value)) :
    ∀ (steps : List Step) (offset : Nat) (b : Bytes)
      (info : List (String × Nat × Nat)) (lps cps : List (FieldSpec × Nat))
      (inst1 : List (String × Value)),
      (∀ f ∈ stepsFields steps, f.is_checksum = false ∧ f.is_length = false ∧
        f.is_timestamp = false) →
      (∀ f ∈ stepsFields steps, kindOk f.kind = true ∧
        domOk f.kind (lookupValue inst f.name) = true) →
      pass1 now steps inst offset = some (b, info, lps, cps, inst1) →
      lps = [] ∧ cps = [] ∧
      ∃ dec, decodeSteps steps b = some (dec, b.length) ∧
        List.Forall₂ (fun (f : FieldSpec) (p : String × Value) =>
          p.1 = f.name ∧ rtRel f.kind (lookupValue inst f.name) p.2)
          (stepsFields steps) dec := by
  intro steps
  induction steps with
  | nil =>
    intro offset b info lps cps inst1 _ _ h
    simp only [pass1, Option.some.injEq, Prod.mk.injEq] at h
    obtain ⟨hb, hinfo, hlps, hcps, hinst⟩ := h
    exact ⟨hlps.symm, hcps.symm, [], by rw [← hb]; rfl,
      by rw [stepsFields]; exact .nil⟩
  | cons step rest ih =>
    intro offset b info lps cps inst1 hflags hdoms h
    cases step with
    | structRun run =>
      have hfr : ∀ f ∈ run, f ∈ stepsFields (Step.structRun run :: rest) := by
        intro f hf
        simp [stepsFields, hf]
      have hrr : ∀ f ∈ stepsFields rest,
          f ∈ stepsFields (Step.structRun run :: rest) := by
        intro f hf
        simp [stepsFields, hf]
      unfold pass1 at h
      cases hx : encodeRun now inst run offset with
      | none => rw [hx] at h; exact Option.noConfusion h
      | some x =>
        obtain ⟨brun, info0, lps0, cps0⟩ := x
        rw [hx] at h
        replace h : Option.bind (pass1 now rest inst (offset + List.length brun))
            (fun y => some (brun ++ y.1, info0 ++ y.2.1, lps0 ++ y.2.2.1,
              cps0 ++ y.2.2.2.1, y.2.2.2.2)) = some (b, info, lps, cps, inst1) := h
        cases hy : pass1 now rest inst (offset + List.length brun) with
        | none => rw [hy] at h; exact Option.noConfusion h
        | some y =>
          obtain ⟨bs2, info2, lps2, cps2, inst2⟩ := y
          rw [hy] at h
          have h5 : (brun ++ bs2, info0 ++ info2, lps0 ++ lps2,
              cps0 ++ cps2, inst2) = (b, info, lps, cps, inst1) :=
            Option.some.inj h
          simp only [Prod.mk.injEq] at h5
          obtain ⟨hbeq, hinfoeq, hlpseq, hcpseq, hinsteq⟩ := h5
          obtain ⟨hlps0, hcps0, hlen0, hrp0, hdec0⟩ :=
            encodeRun_rt now inst run offset brun info0 lps0 cps0
              (fun f hf => hflags f (hfr f hf))
              (fun f hf => (hdoms f (hfr f hf)).2) hx
          obtain ⟨hlps2, hcps2, dec2, hdec2, hrel2⟩ :=
            ih (offset + List.length brun) bs2 info2 lps2 cps2 inst2
              (fun f hf => hflags f (hrr f hf))
              (fun f hf => hdoms f (hrr f hf)) hy
          refine ⟨?_, ?_,
            (run.map (fun g => (g.name, lookupValue inst g.name))) ++ dec2,
            ?_, ?_⟩
          · rw [← hlpseq, hlps0, hlps2]
            rfl
          · rw [← hcpseq, hcps0, hcps2]
            rfl
          · rw [← hbeq]
            have htake : (brun ++ bs2).take (runSize run) = brun := by
              rw [← hlen0]
              exact List.take_left _ _
            have hdrop : (brun ++ bs2).drop (runSize run) = bs2 := by
              rw [← hlen0]
              exact List.drop_left _ _
            have hnotlt : ¬ (brun ++ bs2).length < runSize run := by
              rw [List.length_append]
              omega
            simp only [decodeSteps, hnotlt, if_false, htake, hdrop, hdec0,
              hdec2, Option.bind_eq_bind, Option.some_bind, Option.pure_def]
            rw [List.length_append, hlen0]
          · rw [show stepsFields (Step.structRun run :: rest) =
                run ++ stepsFields rest from rfl]
            refine List.rel_append ?_ hrel2
            rw [List.forall₂_map_right_iff]
            rw [List.forall₂_same]
            intro g hg
            obtain ⟨pe, hpe⟩ := hrp0 g hg
            exact ⟨rfl, rtRel_refl_of_runPrim hpe _⟩
    | complex f =>
      have hfm : f ∈ stepsFields (Step.complex f :: rest) := by
        simp [stepsFields]
      have hrr : ∀ g ∈ stepsFields rest,
          g ∈ stepsFields (Step.complex f :: rest) := by
        intro g hg
        simp [stepsFields, hg]
      obtain ⟨hkf, hdf⟩ := hdoms f hfm
      unfold pass1 at h
      cases hft : FieldKind.fieldToBytes f.kind f.default (lookupValue inst f.name) with
      | mk ob v1 =>
        rw [hft] at h
        cases ob with
        | none => simp at h
        | some chunk =>
          have hv1 : v1 = lookupValue inst f.name :=
            fieldToBytes_pure f.kind f.default _ chunk v1 hft
              (domOk_noShort f.kind _ hdf)
          replace h : Option.bind
              (pass1 now rest (setValue inst f.name v1) (offset + List.length chunk))
              (fun y => some (chunk ++ y.1,
                (f.name, offset, List.length chunk) :: y.2.1,
                y.2.2.1, y.2.2.2.1, y.2.2.2.2)) = some (b, info, lps, cps, inst1) := h
          rw [hv1, setValue_lookup] at h
          cases hy : pass1 now rest inst (offset + List.length chunk) with
          | none => rw [hy] at h; exact Option.noConfusion h
          | some y =>
            obtain ⟨bs2, info2, lps2, cps2, inst2⟩ := y
            rw [hy] at h
            have h5 : (chunk ++ bs2, (f.name, offset, List.length chunk) :: info2,
                lps2, cps2, inst2) = (b, info, lps, cps, inst1) :=
              Option.some.inj h
            simp only [Prod.mk.injEq] at h5
            obtain ⟨hbeq, hinfoeq, hlpseq, hcpseq, hinsteq⟩ := h5
            obtain ⟨hlps2, hcps2, dec2, hdec2, hrel2⟩ :=
              ih (offset + List.length chunk) bs2 info2 lps2 cps2 inst2
                (fun g hg => hflags g (hrr g hg))
                (fun g hg => hdoms g (hrr g hg)) hy
            obtain ⟨w, hw, hrel, hsz⟩ :=
              field_rt f.kind f.default (lookupValue inst f.name) chunk v1 bs2
                hkf hdf hft
            refine ⟨hlpseq ▸ hlps2, hcpseq ▸ hcps2, (f.name, w) :: dec2, ?_, ?_⟩
            · rw [← hbeq]
              cases hs : FieldKind.struct_format_size f.kind with
              | some size =>
                have hszc : chunk.length = size := hsz size hs
                have hnotlt : ¬ (chunk ++ bs2).length < size := by
                  rw [List.length_append]
                  omega
                have hdropc : (chunk ++ bs2).drop size = bs2 := by
                  rw [← hszc]
                  exact List.drop_left _ _
                simp only [decodeSteps, hs, hnotlt, if_false, hw, hdropc, hdec2,
                  Option.bind_eq_bind, Option.some_bind, Option.pure_def]
                rw [List.length_append, hszc]
              | none =>
                simp only [decodeSteps, hs, hw, hdec2, Option.bind_eq_bind,
                  Option.some_bind, Option.pure_def, List.drop_left]
                rw [List.length_append]
            · rw [show stepsFields (Step.complex f :: rest) =
                  f :: stepsFields rest from rfl]
              exact List.Forall₂.cons ⟨rfl, hrel⟩ hrel2


/-- C1 (amended): for every binary schema whose fields carry none of the
smart roles (checksum, length, timestamp), whose kinds are in the covered
class (`kindOk`: no dynamic-mode arrays) and whose instance values lie in
the stated domain (`domOk`), deserializing the serialized bytes succeeds,
consumes the whole buffer, and restores every field value up to the
round-trip relation `rtRel` (equality, except fixed-point values quantised
within `2 ^ (-F)` and arrays compared pointwise). -/
theorem C1_roundtrip (schema : List FieldSpec) (inst : List (String × Value))
    (now : Int) (bs : Bytes) (inst1 : List (String × Value))
    (hser : msgSerialize schema inst now = some (bs, inst1))
    (hflags : ∀ f ∈ schema, f.is_checksum = false ∧ f.is_length = false ∧
      f.is_timestamp = false)
    (hdom : ∀ f ∈ schema, kindOk f.kind = true ∧
      domOk f.kind (lookupValue inst f.name) = true) :
    ∃ dec, msgFromBytes schema bs = some (dec, bs.length) ∧
      List.Forall₂ (fun (f : FieldSpec) (p : String × Value) =>
        p.1 = f.name ∧ rtRel f.kind (lookupValue inst f.name) p.2) schema dec := by
  have hsf : stepsFields (compilePlan schema) = schema := by
    have := stepsFields_compileAux schema [] Option.none
    simpa [compilePlan] using this
  unfold msgSerialize at hser
  cases hp : pass1 now (compilePlan schema) inst 0 with
  | none => rw [hp] at hser; exact Option.noConfusion hser
  | some x =>
    obtain ⟨buf, info, lps, cps, instp⟩ := x
    rw [hp] at hser
    replace hser : Option.bind (applyLengths info lps buf)
        (fun b1 => Option.bind (applyChecksums info cps b1)
          (fun b2 => some (b2, instp))) = some (bs, inst1) := hser
    obtain ⟨hlps, hcps, dec, hdec, hrel⟩ :=
      pass1_decode now inst (compilePlan schema) 0 buf info lps cps instp
        (fun f hf => hflags f (hsf ▸ hf))
        (fun f hf => hdom f (hsf ▸ hf)) hp
    rw [hlps, hcps] at hser
    replace hser : (some (buf, instp) :
        Option (Bytes × List (String × Value))) = some (bs, inst1) := hser
    have hb : buf = bs := congrArg Prod.fst (Option.some.inj hser)
    rw [hb] at hdec
    exact ⟨dec, by rw [msgFromBytes]; exact hdec, hsf ▸ hrel⟩

def c1okschema : List FieldSpec :=
  [{ name := "x", kind := .prim (.uintT 1) .little }]

theorem c1ok_serialize :
    msgSerialize c1okschema [("x", Value.int 7)] 0 =
      some ([7], [("x", Value.int 7)]) := by
  simp [msgSerialize, compilePlan, compileAux, coalescable, flushRun, pass1,
    encodeRun, runPrimOf, runFieldValue, lookupValue, List.lookup, primPack,
    packNatE, toLEBytes, applyLengths, applyChecksums, c1okschema, endianOf]

/-- Closed witness for the amended C1 at the schema `x: u8` and the instance
`x = 7`. -/
theorem C1_roundtrip_witness :
    msgSerialize c1okschema [("x", Value.int 7)] 0 =
      some ([7], [("x", Value.int 7)]) ∧
    ∃ dec, msgFromBytes c1okschema [7] = some (dec, ([7] : Bytes).length) ∧
      List.Forall₂ (fun (f : FieldSpec) (p : String × Value) =>
        p.1 = f.name ∧ rtRel f.kind (lookupValue [("x", Value.int 7)] f.name) p.2)
        c1okschema dec := by
  have hser : msgSerialize c1okschema [("x", Value.int 7)] 0 =
      some ([7], [("x", Value.int 7)]) := by
    simp [msgSerialize, compilePlan, compileAux, coalescable, flushRun, pass1,
      encodeRun, runPrimOf, runFieldValue, lookupValue, List.lookup, primPack,
      packNatE, toLEBytes, applyLengths, applyChecksums, c1okschema, endianOf]
  refine ⟨hser, C1_roundtrip c1okschema [("x", Value.int 7)] 0 [7]
    [("x", Value.int 7)] hser ?_ ?_⟩
  · intro f hf
    simp only [c1okschema, List.mem_singleton] at hf
    subst hf
    exact ⟨rfl, rfl, rfl⟩
  · intro f hf
    simp only [c1okschema, List.mem_singleton] at hf
    subst hf
    exact ⟨rfl, by decide⟩

/-- The unrestricted claim fails for smart fields: with the schema
`a: u8; l: u16 is_length start=a end=a`, serializing stores the computed
length 1 into the length slot, so decoding returns `l = 1` regardless of
the stored value 999. -/
theorem C1_length_field_refuted :
    msgSerialize c1schema [("a", Value.int 7), ("l", Value.int 999)] 0 =
      some ([7, 1, 0], [("a", Value.int 7), ("l", Value.int 999)]) ∧
    msgFromBytes c1schema [7, 1, 0] =
      some ([("a", Value.int 7), ("l", Value.int 1)], 3) ∧
    Value.int 1 ≠ Value.int 999 := by
  refine ⟨?_, ?_, by simp⟩
  · simp [msgSerialize, compilePlan, compileAux, coalescable, flushRun, pass1,
      encodeRun, runPrimOf, runFieldValue, lookupValue, List.lookup, primPack,
      packNatE, toLEBytes, applyLengths, applyChecksums, c1schema, endianOf,
      aFieldF, lFieldF, writeAt, fieldRunSize, runSize, PrimType.size]
  · simp [msgFromBytes, compilePlan, compileAux, coalescable, flushRun,
      decodeSteps, decodeRunFields, runSize, fieldRunSize, runPrimOf,
      primUnpack, unpackNatE, fromLEBytes, c1schema, aFieldF, lFieldF,
      endianOf, PrimType.size]

end SerializerV2
